import Mathlib

/-!
Verification of the multi-stream synchronization and output-dispatch engine
of the depthai_sdk repository, shallowly embedded in Lean 4.

Python strings are modelled as lists of characters; Python dictionaries as
association lists; exceptions as explicit `Option`-valued error results.
-/

namespace DepthaiSDK

/-! ## Python string model: `str.split(' ')`, `' '.join`, numeric tokens -/

/-- A Python string, modelled as its list of characters. -/
abbrev Str := List Char

/-- Coerce a Lean string literal into the model. -/
def str (s : String) : Str := s.toList

/-- `name.split(' ')` from Python: split on every single space, keeping empty
tokens, and returning `[""]` on the empty string. -/
def splitSp : Str → List Str
  | [] => [[]]
  | c :: cs =>
    if c = ' ' then [] :: splitSp cs
    else
      match splitSp cs with
      | [] => [[c]]
      | t :: ts => (c :: t) :: ts

/-- `" ".join(arr)` from Python. -/
def joinSp : List Str → Str
  | [] => []
  | [t] => t
  | t :: t' :: ts => t ++ ' ' :: joinSp (t' :: ts)

/-! ## Decimal tokens: Python `str.isnumeric`, `int(...)`, `str(...)` -/

/-- The decimal digit character for `n < 10` (and `'9'` above). -/
def digitChar (n : Nat) : Char :=
  if n = 0 then '0' else if n = 1 then '1' else if n = 2 then '2'
  else if n = 3 then '3' else if n = 4 then '4' else if n = 5 then '5'
  else if n = 6 then '6' else if n = 7 then '7' else if n = 8 then '8' else '9'

/-- Numeric value of a digit character. -/
def charVal (c : Char) : Nat := c.toNat - 48

/-- Decimal digits of `n`, with enough fuel to terminate (structural so that
concrete instances compute by `decide`). -/
def natToCharsAux : Nat → Nat → Str
  | _, 0 => []
  | n, fuel + 1 =>
    if n < 10 then [digitChar n]
    else natToCharsAux (n / 10) fuel ++ [digitChar (n % 10)]

/-- Python `str(n)` for a natural number: its decimal digit string. -/
def natToChars (n : Nat) : Str := natToCharsAux n (n + 1)

def charsToNat (t : Str) : Nat := t.foldl (fun a c => 10 * a + charVal c) 0

/-- Python `t.isnumeric()`, modelled for ASCII digit strings. -/
def isNumericStr (t : Str) : Bool := !t.isEmpty && t.all Char.isDigit

/-! ## NameResolver: `OutputConfig.find_new_name` and the collision check in
`OutputConfig.setup` (src/depthai_sdk/classes/output_config.py) -/

/-- One iteration of the `while True` body of `OutputConfig.find_new_name`:
split the name on spaces; if the last token is numeric, increment it,
otherwise append `" 2"`. -/
def stepName (name : Str) : Str :=
  if isNumericStr ((splitSp name).getLastD []) then
    joinSp ((splitSp name).dropLast ++
      [natToChars (charsToNat ((splitSp name).getLastD []) + 1)])
  else
    name ++ [' ', '2']

/-- `OutputConfig.find_new_name`: iterate `stepName` until the candidate is not
among the used names. The Python loop is unbounded; the fuel argument makes the
recursion structural, and `find_new_name_total` below shows that
`names.length + 1` fuel always suffices. -/
def find_new_name : Nat → Str → List Str → Option Str
  | 0, _, _ => none
  | fuel + 1, name, names =>
    let name' := stepName name
    if name' ∈ names then find_new_name fuel name' names else some name'

/-- The name-resolution step of `OutputConfig.setup`: keep the requested name
if it is not used, otherwise run `find_new_name`. -/
def resolveName (name : Str) (names : List Str) : Option Str :=
  if name ∈ names then find_new_name (names.length + 1) name names else some name


/-! ## BoundedPacketQueue: capacity from `XoutBase.setup_base`
(src/depthai_sdk/oak_outputs/xout_base.py: `self.queue = Queue(maxsize=10)`);
the producer-side push policy is spec-modelled (see `BoundedQueue.push`). -/

/-- A bounded FIFO buffer; `items` holds the buffered elements, oldest first. -/
structure BoundedQueue (α : Type) where
  capacity : Nat
  items : List α
deriving DecidableEq, Repr

/-- Modelled from the spec: the producer-side `push` of BoundedPacketQueue.
The `newMsg` implementations that feed the queue live in
depthai_sdk/oak_outputs/xout.py, which is not part of the source tree; per the
spec (section 4.1), `push` is non-blocking and, when the queue is at capacity,
the newest packet is dropped silently, preserving the buffered in-order data. -/
def BoundedQueue.push {α : Type} (q : BoundedQueue α) (x : α) : BoundedQueue α :=
  if q.items.length < q.capacity then { q with items := q.items ++ [x] } else q

/-- A sequence of producer pushes with no intervening pop. -/
def BoundedQueue.pushAll {α : Type} (q : BoundedQueue α) (xs : List α) :
    BoundedQueue α :=
  xs.foldl BoundedQueue.push q

/-- `XoutBase.setup_base` creates the per-stream packet queue:
`self.queue = Queue(maxsize=10)`. -/
def setup_base_queue (α : Type) : BoundedQueue α := { capacity := 10, items := [] }

/-! ## XoutBase.checkQueue (src/depthai_sdk/oak_outputs/xout_base.py).
Exceptions are explicit: `PyErr.emptyExc` is Python's `queue.Empty`, anything
else is an arbitrary error raised by a sink. -/

/-- An exception raised during a dispatch tick. -/
inductive PyErr where
  | emptyExc
  | exc (code : Nat)
deriving DecidableEq, Repr

/-- The per-binding state that `checkQueue` reads and mutates: the queue of
synced packets (oldest first, `none` modelling a `None` entry) and the FPS
meter's iteration count (`FPS.next_iter` advances it; the FPS class itself
lives in oak_outputs/fps.py, outside the source tree, so only its advance
count is modelled). -/
structure XoutState (α : Type) where
  queue : List (Option α)
  fpsCount : Nat
deriving DecidableEq, Repr

/-- The outcome of one `checkQueue` tick: the state afterwards, the exception
that escaped to the caller (if any), and the number of sink invocations
(visualize or user callback) that were started. -/
structure TickResult (α : Type) where
  state : XoutState α
  raised : Option PyErr
  sinkCalls : Nat
deriving DecidableEq, Repr

/-- `XoutBase.checkQueue` with `block=False`: pop the queue (the `Empty`
exception of an empty queue is caught by the `except Empty: pass` handler);
on a non-`None` packet, advance the FPS meter, then invoke the visualizer if
one is set, else the user callback.  The surrounding `try` catches only
`Empty`, so any other exception raised by the sink escapes; an `Empty` raised
inside the sink is swallowed by the same handler.  (The `AttributeError`
guard around `frame_shape` is internal to the visualizer branch and is part
of the sink behaviour `vis`.) -/
def checkQueue {α : Type} (vis : Option (α → Option PyErr))
    (cb : α → Option PyErr) (st : XoutState α) : TickResult α :=
  match st.queue with
  | [] => { state := st, raised := none, sinkCalls := 0 }
  | packet? :: rest =>
    match packet? with
    | none => { state := { st with queue := rest }, raised := none, sinkCalls := 0 }
    | some packet =>
      let st' : XoutState α := { queue := rest, fpsCount := st.fpsCount + 1 }
      let sinkResult := match vis with
        | some visualize => visualize packet
        | none => cb packet
      match sinkResult with
      | none => { state := st', raised := none, sinkCalls := 1 }
      | some e =>
        { state := st',
          raised := if e = PyErr.emptyExc then none else some e,
          sinkCalls := 1 }

/-! ## VideoRecorder.close (src/depthai_sdk/recorders/video_recorder.py) -/

/-- The `VideoRecorder` state: the `_closed` flag and the `_writer` dict
(insertion-ordered name → writer); each writer is represented by its name and
by the exception its `close()` raises, if any. -/
structure VideoRecorder where
  closed : Bool
  writer : List (String × Option PyErr)
deriving DecidableEq, Repr

/-- The `for name, writer in self._writer.items(): writer.close()` loop of
`VideoRecorder.close`: close writers in order, returning the names closed
successfully and the first exception raised (which aborts the loop). -/
def closeWriters : List (String × Option PyErr) → List String × Option PyErr
  | [] => ([], none)
  | (n, beh) :: rest =>
    match beh with
    | some e => ([], some e)
    | none =>
      let r := closeWriters rest
      (n :: r.1, r.2)

/-- `VideoRecorder.close`: return immediately when `_closed` is already set;
otherwise set `_closed` and close every writer in order.  Returns the new
state, the names of the writers closed successfully, and the exception that
escaped, if any. -/
def VideoRecorder.close (r : VideoRecorder) :
    VideoRecorder × List String × Option PyErr :=
  if r.closed then (r, [], none)
  else
    let res := closeWriters r.writer
    ({ r with closed := true }, res.1, res.2)


/-! ## SequenceSynchronizer.
`SyncConfig` (src/depthai_sdk/classes/output_config.py) drives
`SequenceNumSync.sync` from depthai_sdk/oak_outputs/syncing.py, a file that is
not part of the source tree; the synchronizer itself is therefore modelled
from the spec (sections 3 and 4.2). -/

/-- A sequence-numbered packet from a named stream (spec section 3): stream
name, sequence number, opaque payload handle. -/
structure Packet where
  stream : String
  seq : Nat
  payload : Nat
deriving DecidableEq, Repr

/-- The partial set of packets collected for one sequence number, keyed by
stream name (spec section 3, SyncGroup). -/
abbrev SyncGroup := List (String × Packet)

/-- Modelled from the spec: the state of the SequenceSynchronizer
(`SequenceNumSync`, absent from the source tree).  Spec section 4.2: a fixed,
known-in-advance set of required stream names, the pending groups keyed by
sequence number, the highest sequence number observed across any stream, and
the emission low-water-mark. -/
structure SyncState where
  required : List String
  groups : List (Nat × SyncGroup)
  maxSeen : Nat
  lowWaterMark : Option Nat
deriving DecidableEq, Repr

/-- A fresh synchronizer for the given required stream names
(`SequenceNumSync.__init__`, called from `SyncConfig.__init__`). -/
def initSync (required : List String) : SyncState :=
  { required := required, groups := [], maxSeen := 0, lowWaterMark := none }

/-- Insert a packet into a group keyed by stream name, overwriting any
previous packet for that stream (last write wins; spec section 4.2). -/
def insertPacket (g : SyncGroup) (s : String) (p : Packet) : SyncGroup :=
  if g.any (fun x => x.1 == s) then
    g.map (fun x => if x.1 == s then (s, p) else x)
  else
    g ++ [(s, p)]

/-- A group is complete when it holds every required stream name. -/
def groupComplete (required : List String) (g : SyncGroup) : Bool :=
  required.all (fun s => g.any (fun x => x.1 == s))

/-- The pending group for sequence number `n` (fresh and empty if none). -/
def findGroup (groups : List (Nat × SyncGroup)) (n : Nat) : SyncGroup :=
  match groups.find? (fun e => e.1 == n) with
  | some e => e.2
  | none => []

/-- Remove the group keyed `n`. -/
def eraseGroup (groups : List (Nat × SyncGroup)) (n : Nat) :
    List (Nat × SyncGroup) :=
  groups.filter (fun e => !(e.1 == n))

/-- Store `g` as the group keyed `n`, replacing a previous group for `n` or
appending a new entry. -/
def storeGroup (groups : List (Nat × SyncGroup)) (n : Nat) (g : SyncGroup) :
    List (Nat × SyncGroup) :=
  if groups.any (fun e => e.1 == n) then
    groups.map (fun e => if e.1 == n then (n, g) else e)
  else
    groups ++ [(n, g)]

/-- Drop every group that has fallen more than `horizon` behind the highest
sequence number observed (spec section 4.2: incomplete groups older than a
bounded horizon are evicted and discarded, never emitted). -/
def evictOld (horizon : Nat) (maxSeen : Nat) (groups : List (Nat × SyncGroup)) :
    List (Nat × SyncGroup) :=
  groups.filter (fun e => !(decide (e.1 + horizon < maxSeen)))

/-- Modelled from the spec: `SequenceNumSync.sync` (spec section 4.2).  On a
packet for stream `s` at sequence number `n`: create the group for `n` if
absent; insert the packet, overwriting any previous one for `(n, s)`; if the
group now holds all required stream names, remove it, emit it as a completed
bundle, and update the emission low-water-mark to `n`; independently, evict
every group more than `horizon` behind the highest sequence number observed.
The spec leaves the numeric horizon open (section 9), so it is a parameter. -/
def sync (horizon : Nat) (st : SyncState) (p : Packet) :
    SyncState × Option (Nat × SyncGroup) :=
  if groupComplete st.required (insertPacket (findGroup st.groups p.seq) p.stream p) then
    ({ st with
        groups := evictOld horizon (max st.maxSeen p.seq) (eraseGroup st.groups p.seq),
        maxSeen := max st.maxSeen p.seq,
        lowWaterMark := some p.seq },
      some (p.seq, insertPacket (findGroup st.groups p.seq) p.stream p))
  else
    ({ st with
        groups := evictOld horizon (max st.maxSeen p.seq)
          (storeGroup st.groups p.seq
            (insertPacket (findGroup st.groups p.seq) p.stream p)),
        maxSeen := max st.maxSeen p.seq },
      none)

/-- `SyncConfig.new_packet` (src/depthai_sdk/classes/output_config.py): feed
the packet's sequence number, stream name and payload into `sync`; when a
completed bundle comes back, it is handed to the stored callback (with the
visualizer when one is set). -/
def new_packet (horizon : Nat) (st : SyncState) (p : Packet) :
    SyncState × Option (Nat × SyncGroup) :=
  sync horizon st p

/-- Run the synchronizer over a whole arrival interleaving, collecting the
emitted bundles (exactly the callback invocations of `new_packet`) in
order. -/
def runSync (horizon : Nat) (st : SyncState) :
    List Packet → SyncState × List (Nat × SyncGroup)
  | [] => (st, [])
  | p :: ps =>
    let r := new_packet horizon st p
    let rest := runSync horizon r.1 ps
    (rest.1, r.2.toList ++ rest.2)

/-- Helper for stating the exactly-once bound: does the pending group for `n`
hold an entry for stream `s`? -/
def hasPendingEntry (st : SyncState) (n : Nat) (s : String) : Bool :=
  st.groups.any (fun e => e.1 == n && e.2.any (fun x => x.1 == s))

/-- All interleavings of two lists (each preserving the relative order of its
source), with explicit fuel so that concrete instances compute. -/
def interleavingsFuel {α : Type} : Nat → List α → List α → List (List α)
  | 0, _, _ => []
  | _ + 1, [], ys => [ys]
  | _ + 1, x :: xs, [] => [x :: xs]
  | fuel + 1, x :: xs, y :: ys =>
    (interleavingsFuel fuel xs (y :: ys)).map (fun l => x :: l) ++
      (interleavingsFuel fuel (x :: xs) ys).map (fun l => y :: l)

/-- All interleavings of two lists. -/
def interleavings {α : Type} (xs ys : List α) : List (List α) :=
  interleavingsFuel (xs.length + ys.length) xs ys

/-- The "color" packets of the end-to-end scenario: sequence numbers 0, 1, 2. -/
def colorPkts : List Packet :=
  [{ stream := "color", seq := 0, payload := 0 },
    { stream := "color", seq := 1, payload := 0 },
    { stream := "color", seq := 2, payload := 0 }]

/-- The "nn" packets of the end-to-end scenario: sequence numbers 1, 2 only. -/
def nnPkts : List Packet :=
  [{ stream := "nn", seq := 1, payload := 0 },
    { stream := "nn", seq := 2, payload := 0 }]

/-- The stream-"a" packets of the eviction scenario: sequence numbers
0 through 1000, while stream "b" never delivers. -/
def aPkts : List Packet :=
  (List.range 1001).map (fun i => { stream := "a", seq := i, payload := 0 })


/-- Verification predicate: what a well-formed emitted bundle for sequence
number `n` looks like relative to the packets `evs` fed in: one entry per
stream name, each required stream covered, and every entry a packet of that
stream with that sequence number actually received. -/
def GoodBundle (required : List String) (evs : List Packet) (n : Nat)
    (g : SyncGroup) : Prop :=
  (g.map Prod.fst).Nodup ∧
  (∀ s ∈ required, ∃ q, (s, q) ∈ g) ∧
  (∀ x ∈ g, x.2.stream = x.1 ∧ x.2.seq = n ∧ x.2 ∈ evs)

/-- Verification invariant of the synchronizer state, relative to the packets
`seen` so far: the required set is fixed, group keys are unique, every stored
entry is a received packet of the right stream and sequence number, and every
pending group is still incomplete (complete groups are emitted and removed at
once). -/
structure SyncWF (required : List String) (seen : List Packet)
    (st : SyncState) : Prop where
  req : st.required = required
  keysNodup : (st.groups.map Prod.fst).Nodup
  groupKeysNodup : ∀ e ∈ st.groups, (e.2.map Prod.fst).Nodup
  entries : ∀ e ∈ st.groups, ∀ x ∈ e.2,
    x.2.stream = x.1 ∧ x.2.seq = e.1 ∧ x.2 ∈ seen
  incomplete : ∀ e ∈ st.groups, groupComplete required e.2 = false


/-- Helper for the exactly-once bound: 1 when the pending group for `n` holds
an entry for stream `s`, else 0. -/
def pendNat (st : SyncState) (n : Nat) (s : String) : Nat :=
  cond (hasPendingEntry st n s) 1 0

/-- Helper for the exactly-once bound: how many bundles for sequence number
`n` a single `sync` call emitted (0 or 1). -/
def emCount (em : Option (Nat × SyncGroup)) (n : Nat) : Nat :=
  match em with
  | some e => if e.1 = n then 1 else 0
  | none => 0

/-! ## Theorems -/

theorem splitSp_ne_nil (s : Str) : splitSp s ≠ [] := by
  cases s with
  | nil => simp [splitSp]
  | cons c cs =>
    simp only [splitSp]
    split
    · simp
    · cases h : splitSp cs <;> simp

theorem joinSp_cons_cons (t t' : Str) (ts : List Str) :
    joinSp (t :: t' :: ts) = t ++ ' ' :: joinSp (t' :: ts) := rfl

theorem joinSp_splitSp (s : Str) : joinSp (splitSp s) = s := by
  induction s with
  | nil => rfl
  | cons c cs ih =>
    simp only [splitSp]
    split
    · rename_i hsp
      obtain ⟨t, ts, ht⟩ : ∃ t ts, splitSp cs = t :: ts := by
        cases h : splitSp cs with
        | nil => exact absurd h (splitSp_ne_nil cs)
        | cons t ts => exact ⟨t, ts, rfl⟩
      rw [ht]
      rw [ht] at ih
      rw [joinSp_cons_cons]
      simp [hsp, ih]
    · obtain ⟨t, ts, ht⟩ : ∃ t ts, splitSp cs = t :: ts := by
        cases h : splitSp cs with
        | nil => exact absurd h (splitSp_ne_nil cs)
        | cons t ts => exact ⟨t, ts, rfl⟩
      rw [ht]
      rw [ht] at ih
      cases ts with
      | nil => simp [joinSp] at ih ⊢; exact ih
      | cons t' ts' =>
        rw [joinSp_cons_cons] at ih ⊢
        simp [← ih]

theorem mem_splitSp_no_space (s : Str) (t : Str) (ht : t ∈ splitSp s) : ' ' ∉ t := by
  induction s generalizing t with
  | nil =>
    have : t = [] := by simpa [splitSp] using ht
    simp [this]
  | cons c cs ih =>
    simp only [splitSp] at ht
    split at ht
    · rcases List.mem_cons.mp ht with h1 | h1
      · simp [h1]
      · exact ih t h1
    · rename_i hc
      obtain ⟨u, us, hu⟩ : ∃ u us, splitSp cs = u :: us := by
        cases h : splitSp cs with
        | nil => exact absurd h (splitSp_ne_nil cs)
        | cons u us => exact ⟨u, us, rfl⟩
      rw [hu] at ht
      rcases List.mem_cons.mp ht with h1 | h1
      · subst h1
        intro hmem
        rcases List.mem_cons.mp hmem with h2 | h2
        · exact hc h2.symm
        · exact ih u (hu ▸ List.mem_cons_self u us) h2
      · exact ih t (hu ▸ List.mem_cons_of_mem u h1)

theorem joinSp_concat (l : List Str) (hl : l ≠ []) (t : Str) :
    joinSp (l ++ [t]) = joinSp l ++ ' ' :: t := by
  induction l with
  | nil => exact absurd rfl hl
  | cons u us ih =>
    cases us with
    | nil => rfl
    | cons u' us' =>
      have := ih (by simp)
      rw [List.cons_append, joinSp_cons_cons]
      rw [List.cons_append] at this ⊢
      rw [joinSp_cons_cons, this]
      simp

theorem splitSp_single_no_space (t : Str) (h : ' ' ∉ t) : splitSp t = [t] := by
  induction t with
  | nil => rfl
  | cons c cs ih =>
    have hc : c ≠ ' ' := by intro hcc; exact h (by simp [hcc])
    simp only [splitSp, if_neg (fun hcc => hc hcc)]
    rw [ih (fun hmem => h (List.mem_cons_of_mem c hmem))]

theorem splitSp_append_sep (t : Str) (h : ' ' ∉ t) (rest : Str) :
    splitSp (t ++ ' ' :: rest) = t :: splitSp rest := by
  induction t with
  | nil => simp [splitSp]
  | cons c cs ih =>
    have hc : c ≠ ' ' := by intro hcc; exact h (by simp [hcc])
    rw [List.cons_append]
    simp only [splitSp, if_neg (fun hcc => hc hcc)]
    rw [ih (fun hmem => h (List.mem_cons_of_mem c hmem))]

theorem splitSp_joinSp (l : List Str) (hl : l ≠ [])
    (hsp : ∀ t ∈ l, ' ' ∉ t) : splitSp (joinSp l) = l := by
  induction l with
  | nil => exact absurd rfl hl
  | cons t ts ih =>
    cases ts with
    | nil => exact splitSp_single_no_space t (hsp t (by simp))
    | cons t' ts' =>
      rw [joinSp_cons_cons, splitSp_append_sep t (hsp t (by simp))]
      rw [ih (by simp) (fun u hu => hsp u (List.mem_cons_of_mem t hu))]

theorem natToCharsAux_fuel (fuel₁ : Nat) : ∀ fuel₂ n, n < fuel₁ → n < fuel₂ →
    natToCharsAux n fuel₁ = natToCharsAux n fuel₂ := by
  induction fuel₁ with
  | zero => intro fuel₂ n h1; omega
  | succ fuel₁ ih =>
    intro fuel₂ n h1 h2
    cases fuel₂ with
    | zero => omega
    | succ fuel₂ =>
      simp only [natToCharsAux]
      split
      · rfl
      · rename_i hn
        rw [ih fuel₂ (n / 10) (by omega) (by omega)]

theorem natToChars_eq (n : Nat) : natToChars n =
    if n < 10 then [digitChar n]
    else natToChars (n / 10) ++ [digitChar (n % 10)] := by
  show natToCharsAux n (n + 1) = _
  simp only [natToCharsAux]
  split
  · rfl
  · rename_i hn
    rw [natToCharsAux_fuel n (n / 10 + 1) (n / 10) (by omega) (by omega)]
    rfl

/-- Python `int(t)` on a digit string (via `str.isnumeric`, modelled for ASCII
digit strings). -/
theorem digitChar_isDigit (n : Nat) : (digitChar n).isDigit = true := by
  unfold digitChar; split_ifs <;> decide

theorem digitChar_ne_space (n : Nat) : digitChar n ≠ ' ' := by
  unfold digitChar; split_ifs <;> decide

theorem charVal_digitChar (n : Nat) (h : n < 10) : charVal (digitChar n) = n := by
  unfold digitChar
  split_ifs with h0 h1 h2 h3 h4 h5 h6 h7 h8
  · simp [h0]; decide
  · simp [h1]; decide
  · simp [h2]; decide
  · simp [h3]; decide
  · simp [h4]; decide
  · simp [h5]; decide
  · simp [h6]; decide
  · simp [h7]; decide
  · simp [h8]; decide
  · have : n = 9 := by omega
    simp [this]; decide

theorem natToChars_ne_nil (n : Nat) : natToChars n ≠ [] := by
  rw [natToChars_eq]
  split <;> simp

theorem natToChars_all_digits (n : Nat) : ∀ c ∈ natToChars n, c.isDigit = true := by
  induction n using Nat.strong_induction_on with
  | _ n ih =>
    rw [natToChars_eq]
    split
    · intro c hc
      rw [List.mem_singleton] at hc
      rw [hc]; exact digitChar_isDigit n
    · intro c hc
      rcases List.mem_append.mp hc with h1 | h1
      · exact ih (n / 10) (Nat.div_lt_self (by omega) (by omega)) c h1
      · rw [List.mem_singleton] at h1
        rw [h1]; exact digitChar_isDigit (n % 10)

theorem natToChars_no_space (n : Nat) : ' ' ∉ natToChars n := by
  intro h
  have := natToChars_all_digits n ' ' h
  simp [Char.isDigit] at this

theorem isNumericStr_natToChars (n : Nat) : isNumericStr (natToChars n) = true := by
  unfold isNumericStr
  rw [Bool.and_eq_true]
  constructor
  · cases h : natToChars n with
    | nil => exact absurd h (natToChars_ne_nil n)
    | cons c cs => simp [List.isEmpty]
  · rw [List.all_eq_true]
    exact natToChars_all_digits n

theorem foldl_charsToNat_natToChars (n : Nat) (a : Nat) :
    (natToChars n).foldl (fun a c => 10 * a + charVal c) a =
      a * 10 ^ (natToChars n).length + n := by
  induction n using Nat.strong_induction_on generalizing a with
  | _ n ih =>
    rw [natToChars_eq]
    split
    · rename_i h
      simp [List.foldl, charVal_digitChar n h]
      ring
    · rename_i h
      rw [List.foldl_append]
      rw [ih (n / 10) (Nat.div_lt_self (by omega) (by omega)) a]
      simp only [List.foldl]
      rw [charVal_digitChar (n % 10) (Nat.mod_lt _ (by omega))]
      rw [List.length_append, List.length_singleton]
      rw [pow_succ]
      have : n = 10 * (n / 10) + n % 10 := (Nat.div_add_mod n 10).symm
      ring_nf
      omega

theorem charsToNat_natToChars (n : Nat) : charsToNat (natToChars n) = n := by
  unfold charsToNat
  rw [foldl_charsToNat_natToChars]
  simp

theorem natToChars_injective : Function.Injective natToChars := by
  intro a b h
  have := charsToNat_natToChars a
  rw [h, charsToNat_natToChars] at this
  exact this.symm

theorem find_new_name_not_mem (fuel : Nat) (name : Str) (names : List Str) (r : Str)
    (h : find_new_name fuel name names = some r) : r ∉ names := by
  induction fuel generalizing name with
  | zero => simp [find_new_name] at h
  | succ fuel ih =>
    simp only [find_new_name] at h
    split at h
    · exact ih (stepName name) h
    · rename_i hmem
      rw [Option.some_inj] at h
      rw [← h]
      exact hmem

theorem find_new_name_none (fuel : Nat) (name : Str) (names : List Str)
    (h : find_new_name fuel name names = none) :
    ∀ i, 1 ≤ i → i ≤ fuel → stepName^[i] name ∈ names := by
  induction fuel generalizing name with
  | zero => intro i h1 h2; omega
  | succ fuel ih =>
    simp only [find_new_name] at h
    split at h
    · rename_i hmem
      intro i h1 h2
      match i, h1 with
      | 1, _ => simpa using hmem
      | i + 2, _ =>
        have := ih (stepName name) h (i + 1) (by omega) (by omega)
        rw [Function.iterate_succ_apply] at this ⊢
        exact this
    · simp at h

/-- After one `stepName`, the candidate has the canonical shape
`joinSp (pre ++ [natToChars k])` with space-free prefix tokens. -/
theorem stepName_shape (name : Str) :
    ∃ pre k, (∀ t ∈ pre, ' ' ∉ t) ∧
      stepName name = joinSp (pre ++ [natToChars k]) := by
  unfold stepName
  split
  · rename_i hnum
    exact ⟨(splitSp name).dropLast, charsToNat ((splitSp name).getLastD []) + 1,
      fun t ht => mem_splitSp_no_space name t (List.dropLast_subset _ ht), rfl⟩
  · refine ⟨splitSp name, 2, fun t ht => mem_splitSp_no_space name t ht, ?_⟩
    rw [joinSp_concat (splitSp name) (splitSp_ne_nil name)]
    rw [joinSp_splitSp]
    have h2 : natToChars 2 = ['2'] := by decide
    rw [h2]

/-- `stepName` increments the numeric suffix of a canonical candidate. -/
theorem stepName_canonical (pre : List Str) (hpre : ∀ t ∈ pre, ' ' ∉ t) (m : Nat) :
    stepName (joinSp (pre ++ [natToChars m])) =
      joinSp (pre ++ [natToChars (m + 1)]) := by
  unfold stepName
  have hwf : ∀ t ∈ pre ++ [natToChars m], ' ' ∉ t := by
    intro t ht
    rcases List.mem_append.mp ht with h1 | h1
    · exact hpre t h1
    · rw [List.mem_singleton] at h1
      rw [h1]
      exact natToChars_no_space m
  have hsplit : splitSp (joinSp (pre ++ [natToChars m])) = pre ++ [natToChars m] :=
    splitSp_joinSp _ (by simp) hwf
  rw [hsplit]
  rw [List.getLastD_concat, List.dropLast_concat]
  rw [if_pos (isNumericStr_natToChars m), charsToNat_natToChars]

theorem stepName_iterate (name : Str) :
    ∃ pre k, (∀ t ∈ pre, ' ' ∉ t) ∧
      ∀ i, stepName^[i + 1] name = joinSp (pre ++ [natToChars (k + i)]) := by
  obtain ⟨pre, k, hpre, hbase⟩ := stepName_shape name
  refine ⟨pre, k, hpre, ?_⟩
  intro i
  induction i with
  | zero => simpa using hbase
  | succ i ih =>
    rw [Function.iterate_succ_apply', ih, stepName_canonical pre hpre]
    have : k + i + 1 = k + (i + 1) := by omega
    rw [this]

theorem nodup_subset_length_le {α : Type} (l l' : List α) (hn : l.Nodup)
    (hs : l ⊆ l') : l.length ≤ l'.length :=
  (hn.subperm hs).length_le

/-- With fuel `names.length + 1`, `find_new_name` always finds a free name:
the successive candidates are pairwise distinct, so they cannot all collide. -/
theorem find_new_name_total (name : Str) (names : List Str) :
    ∃ r, find_new_name (names.length + 1) name names = some r := by
  cases h : find_new_name (names.length + 1) name names with
  | some r => exact ⟨r, rfl⟩
  | none =>
    exfalso
    obtain ⟨pre, k, hpre, hiter⟩ := stepName_iterate name
    have hall := find_new_name_none _ _ _ h
    have hinj : Function.Injective fun i => joinSp (pre ++ [natToChars (k + i)]) := by
      intro a b hab
      dsimp only at hab
      have hwf : ∀ m, ∀ t ∈ pre ++ [natToChars m], ' ' ∉ t := by
        intro m t ht
        rcases List.mem_append.mp ht with h1 | h1
        · exact hpre t h1
        · rw [List.mem_singleton] at h1
          rw [h1]
          exact natToChars_no_space m
      have ha := splitSp_joinSp (pre ++ [natToChars (k + a)]) (by simp) (hwf (k + a))
      have hb := splitSp_joinSp (pre ++ [natToChars (k + b)]) (by simp) (hwf (k + b))
      have : pre ++ [natToChars (k + a)] = pre ++ [natToChars (k + b)] := by
        rw [← ha, ← hb, hab]
      have := natToChars_injective (by simpa using List.append_cancel_left this)
      omega
    set L := names.length with hL
    have hnodup : ((List.range (L + 1)).map
        fun i => joinSp (pre ++ [natToChars (k + i)])).Nodup :=
      List.Nodup.map hinj (List.nodup_range _)
    have hsub : ((List.range (L + 1)).map
        fun i => joinSp (pre ++ [natToChars (k + i)])) ⊆ names := by
      intro x hx
      rw [List.mem_map] at hx
      obtain ⟨i, hi, hxi⟩ := hx
      rw [List.mem_range] at hi
      rw [← hxi, ← hiter i]
      exact hall (i + 1) (by omega) (by omega)
    have := nodup_subset_length_le _ names hnodup hsub
    rw [List.length_map, List.length_range] at this
    omega

theorem resolveName_total (name : Str) (names : List Str) :
    ∃ r, resolveName name names = some r ∧ r ∉ names := by
  unfold resolveName
  split
  · obtain ⟨r, hr⟩ := find_new_name_total name names
    exact ⟨r, hr, find_new_name_not_mem _ _ _ _ hr⟩
  · rename_i hmem
    exact ⟨name, rfl, hmem⟩

/-- C5: name resolution returns the requested name unchanged when it is not in
the used set; otherwise, if the name ends in a numeric token that token is
incremented and retried, else " 2" is appended and retried, incrementing on
repeated collision until a free name (never in the used set) is found; two
outputs both requesting "depth" resolve to "depth" and "depth 2", and a third
resolves to "depth 3". -/
theorem C5_name_resolution :
    (∀ name names, name ∉ names → resolveName name names = some name) ∧
    (∀ name names r, resolveName name names = some r → r ∉ names) ∧
    (∀ name names, ∃ r, resolveName name names = some r ∧ r ∉ names) ∧
    (∀ name, isNumericStr ((splitSp name).getLastD []) = false →
      stepName name = name ++ [' ', '2']) ∧
    (∀ pre m, (∀ t ∈ pre, ' ' ∉ t) →
      stepName (joinSp (pre ++ [natToChars m])) =
        joinSp (pre ++ [natToChars (m + 1)])) ∧
    (resolveName (str "depth") [] = some (str "depth") ∧
      resolveName (str "depth") [str "depth"] = some (str "depth 2") ∧
      resolveName (str "depth") [str "depth", str "depth 2"] =
        some (str "depth 3")) := by
  refine ⟨?_, ?_, resolveName_total, ?_,
    fun pre m hp => stepName_canonical pre hp m, by decide, by decide, by decide⟩
  · intro name names hmem
    unfold resolveName
    rw [if_neg hmem]
  · intro name names r h
    unfold resolveName at h
    split at h
    · exact find_new_name_not_mem _ _ _ _ h
    · rename_i hmem
      rw [Option.some_inj] at h
      rw [← h]
      exact hmem
  · intro name hnum
    unfold stepName
    rw [if_neg (by rw [hnum]; simp)]

/-- Witness for C5: the hypotheses of each clause are dischargeable at concrete
inputs. -/
theorem C5_name_resolution_witness :
    resolveName (str "color") [str "depth"] = some (str "color") ∧
    str "color" ∉ [str "depth"] ∧
    stepName (str "color") = str "color 2" ∧
    stepName (str "depth 41") = str "depth 42" := by
  refine ⟨C5_name_resolution.1 (str "color") [str "depth"] (by decide),
    C5_name_resolution.2.1 (str "color") [str "depth"] (str "color")
      (C5_name_resolution.1 (str "color") [str "depth"] (by decide)),
    (C5_name_resolution.2.2.2.1 (str "color") (by decide)).trans (by decide), ?_⟩
  have h := C5_name_resolution.2.2.2.2.1 [str "depth"] 41 (by decide)
  have h1 : joinSp ([str "depth"] ++ [natToChars 41]) = str "depth 41" := by decide
  have h2 : joinSp ([str "depth"] ++ [natToChars (41 + 1)]) = str "depth 42" := by decide
  rw [h1, h2] at h
  exact h

theorem pushAll_items {α : Type} (xs : List α) : ∀ q : BoundedQueue α,
    (q.pushAll xs).items = q.items ++ xs.take (q.capacity - q.items.length) := by
  induction xs with
  | nil => intro q; simp [BoundedQueue.pushAll]
  | cons x xs ih =>
    intro q
    show ((q.push x).pushAll xs).items = _
    by_cases h : q.items.length < q.capacity
    · rw [ih]
      simp only [BoundedQueue.push, if_pos h]
      have hc : q.capacity - q.items.length = (q.capacity - (q.items.length + 1)) + 1 := by
        omega
      rw [hc, List.take_succ_cons]
      simp [List.append_assoc]
    · rw [ih]
      simp only [BoundedQueue.push, if_neg h]
      have hc : q.capacity - q.items.length = 0 := by omega
      rw [hc]
      simp

/-- C6: every per-stream packet queue is created with fixed capacity 10
(`setup_base`), and for every sequence of pushes with no intervening pop the
buffered contents are exactly the first 10 packets pushed: the length never
exceeds the capacity, and pushing 11 packets leaves the queue holding the
first 10 in order, the newest packet having been dropped on overflow. -/
theorem C6_queue_bounded :
    (∀ α : Type, (setup_base_queue α).capacity = 10) ∧
    (∀ (α : Type) (xs : List α),
      ((setup_base_queue α).pushAll xs).items = xs.take 10) ∧
    (∀ (α : Type) (xs : List α),
      ((setup_base_queue α).pushAll xs).items.length ≤ 10) ∧
    (∀ (α : Type) (xs : List α), xs.length = 10 + 1 →
      ((setup_base_queue α).pushAll xs).items = xs.dropLast) := by
  have hitems : ∀ (α : Type) (xs : List α),
      ((setup_base_queue α).pushAll xs).items = xs.take 10 := by
    intro α xs
    rw [pushAll_items]
    simp [setup_base_queue]
  refine ⟨fun α => rfl, hitems, ?_, ?_⟩
  · intro α xs
    rw [hitems]
    simp
  · intro α xs hlen
    rw [hitems, List.dropLast_eq_take, hlen]

/-- Witness for C6: the overflow clause at 11 concrete pushes. -/
theorem C6_queue_bounded_witness :
    (List.range 11).length = 10 + 1 ∧
    ((setup_base_queue Nat).pushAll (List.range 11)).items = (List.range 11).dropLast :=
  ⟨by decide, C6_queue_bounded.2.2.2 Nat (List.range 11) (by decide)⟩

/-- C9: for every binding whose packet queue is empty, a non-blocking poll
(`checkQueue` with `block=False`) returns immediately and normally: it
invokes no sink, advances no FPS counter, and raises no error to the
caller. -/
theorem C9_empty_poll {α : Type} (vis : Option (α → Option PyErr))
    (cb : α → Option PyErr) (st : XoutState α) (h : st.queue = []) :
    checkQueue vis cb st = { state := st, raised := none, sinkCalls := 0 } := by
  cases st with
  | mk q f =>
    simp only at h
    subst h
    rfl

/-- Witness for C9 at a concrete empty-queue state. -/
theorem C9_empty_poll_witness :
    checkQueue (none : Option (Nat → Option PyErr)) (fun _ => some (PyErr.exc 1))
        { queue := [], fpsCount := 3 } =
      { state := { queue := [], fpsCount := 3 }, raised := none, sinkCalls := 0 } :=
  C9_empty_poll none (fun _ => some (PyErr.exc 1)) { queue := [], fpsCount := 3 } rfl

/-- C3 counterexample: with one buffered packet and a user callback that
raises, the error escapes `checkQueue` — it is not caught at the dispatch
boundary, whose `try` handles only the queue-`Empty` condition. -/
theorem C3_counterexample :
    (checkQueue (none : Option (Nat → Option PyErr)) (fun _ => some (PyErr.exc 7))
        { queue := [some 0], fpsCount := 0 }).raised = some (PyErr.exc 7) := rfl

/-- C3 (amended): `checkQueue` catches only the queue-`Empty` condition — an
empty queue returns normally, and an `Empty` raised inside the sink is
swallowed by the same handler — but any other error raised by the sink
propagates to the caller of `checkQueue`; whether other bindings are still
serviced is therefore decided by the caller, not at this boundary. -/
theorem C3_sink_error_not_caught {α : Type} (cb : α → Option PyErr)
    (st : XoutState α) (p : α) (rest : List (Option α)) (e : PyErr)
    (hq : st.queue = some p :: rest) (he : cb p = some e)
    (hne : e ≠ PyErr.emptyExc) :
    (checkQueue none cb st).raised = some e ∧
    (∀ st' : XoutState α, st'.queue = [] → (checkQueue none cb st').raised = none) ∧
    (∀ cb' : α → Option PyErr, cb' p = some PyErr.emptyExc →
      (checkQueue none cb' st).raised = none) := by
  refine ⟨?_, ?_, ?_⟩
  · cases st with
    | mk q f =>
      simp only at hq
      subst hq
      simp [checkQueue, he, hne]
  · intro st' h'
    rw [C9_empty_poll none cb st' h']
  · intro cb' h'
    cases st with
    | mk q f =>
      simp only at hq
      subst hq
      simp [checkQueue, h']

/-- Witness for C3 (amended) at a concrete failing sink. -/
theorem C3_sink_error_not_caught_witness :
    (checkQueue (none : Option (Nat → Option PyErr)) (fun _ => some (PyErr.exc 7))
        { queue := [some 0], fpsCount := 0 }).raised = some (PyErr.exc 7) :=
  (C3_sink_error_not_caught (fun _ => some (PyErr.exc 7))
    { queue := [some 0], fpsCount := 0 } 0 [] (PyErr.exc 7) rfl rfl (by decide)).1

/-- C8 counterexample: the FPS meter is advanced although the sink invocation
failed, i.e. it is not advanced "on successful dispatch". -/
theorem C8_counterexample :
    ((checkQueue (none : Option (Nat → Option PyErr)) (fun _ => some (PyErr.exc 3))
        { queue := [some 0], fpsCount := 5 }).state.fpsCount = 6) ∧
    ((checkQueue (none : Option (Nat → Option PyErr)) (fun _ => some (PyErr.exc 3))
        { queue := [some 0], fpsCount := 5 }).raised = some (PyErr.exc 3)) :=
  ⟨rfl, rfl⟩

/-- C8 (amended): the FPS meter is advanced exactly once per popped non-`None`
packet — before the sink is invoked, hence regardless of whether the sink
invocation succeeds — and never on a tick that dispatches nothing; the
advance always equals the tick's number of sink invocations, which is at
most one. -/
theorem C8_fps_advance {α : Type} (vis : Option (α → Option PyErr))
    (cb : α → Option PyErr) (st : XoutState α) :
    ((checkQueue vis cb st).state.fpsCount =
      st.fpsCount + (checkQueue vis cb st).sinkCalls) ∧
    ((checkQueue vis cb st).sinkCalls ≤ 1) ∧
    (st.queue = [] → (checkQueue vis cb st).state.fpsCount = st.fpsCount) ∧
    (∀ p rest, st.queue = some p :: rest →
      (checkQueue vis cb st).state.fpsCount = st.fpsCount + 1) := by
  cases st with
  | mk q f =>
    cases q with
    | nil => exact ⟨rfl, by simp [checkQueue], fun _ => rfl, fun p rest h => by simp at h⟩
    | cons h t =>
      cases h with
      | none =>
        refine ⟨rfl, by simp [checkQueue], fun hcon => by simp at hcon,
          fun p rest hcon => by simp at hcon⟩
      | some p =>
        have hcalls : ∀ r : TickResult α,
            (checkQueue vis cb { queue := some p :: t, fpsCount := f }) = r →
            r.state.fpsCount = f + 1 ∧ r.sinkCalls = 1 := by
          intro r hr
          cases hvis : vis with
          | none =>
            cases hcb : cb p with
            | none => simp [checkQueue, hvis, hcb] at hr; simp [← hr]
            | some e => simp [checkQueue, hvis, hcb] at hr; simp [← hr]
          | some v =>
            cases hv : v p with
            | none => simp [checkQueue, hvis, hv] at hr; simp [← hr]
            | some e => simp [checkQueue, hvis, hv] at hr; simp [← hr]
        obtain ⟨h1, h2⟩ := hcalls _ rfl
        refine ⟨by rw [h1, h2], by rw [h2], fun hcon => by simp at hcon, ?_⟩
        intro p' rest' hcon
        rw [h1]

/-- Witness for C8 (amended) at concrete states: an empty tick and a
full-queue tick with a failing sink. -/
theorem C8_fps_advance_witness :
    ((checkQueue (none : Option (Nat → Option PyErr)) (fun _ => some (PyErr.exc 3))
        { queue := [], fpsCount := 5 }).state.fpsCount = 5) ∧
    ((checkQueue (none : Option (Nat → Option PyErr)) (fun _ => some (PyErr.exc 3))
        { queue := [some 0], fpsCount := 5 }).state.fpsCount = 5 + 1) :=
  ⟨(C8_fps_advance none (fun _ => some (PyErr.exc 3)) { queue := [], fpsCount := 5 }).2.2.1
      rfl,
    (C8_fps_advance none (fun _ => some (PyErr.exc 3))
      { queue := [some 0], fpsCount := 5 }).2.2.2 0 [] rfl⟩

theorem closeWriters_all_ok (l : List (String × Option PyErr))
    (h : ∀ e ∈ l, e.2 = none) : closeWriters l = (l.map Prod.fst, none) := by
  induction l with
  | nil => rfl
  | cons x xs ih =>
    obtain ⟨n, beh⟩ := x
    have hx : beh = none := h (n, beh) (by simp)
    subst hx
    simp only [closeWriters, List.map_cons]
    rw [ih (fun e he => h e (List.mem_cons_of_mem _ he))]

theorem closeWriters_first_fail (pre : List (String × Option PyErr))
    (n : String) (e : PyErr) (post : List (String × Option PyErr))
    (hpre : ∀ x ∈ pre, x.2 = none) :
    closeWriters (pre ++ (n, some e) :: post) = (pre.map Prod.fst, some e) := by
  induction pre with
  | nil => rfl
  | cons x xs ih =>
    obtain ⟨m, beh⟩ := x
    have hx : beh = none := hpre (m, beh) (by simp)
    subst hx
    rw [List.cons_append]
    simp only [closeWriters, List.map_cons]
    rw [ih (fun y hy => hpre y (List.mem_cons_of_mem _ hy))]

/-- C7 counterexample: a recorder with two writers whose first writer's
`close()` raises — the exception escapes `VideoRecorder.close` (it is
rethrown) and the second writer is never closed. -/
theorem C7_counterexample :
    (VideoRecorder.close
        { closed := false,
          writer := [("a", some (PyErr.exc 3)), ("b", none)] }).2.2 =
      some (PyErr.exc 3) ∧
    "b" ∉ (VideoRecorder.close
        { closed := false,
          writer := [("a", some (PyErr.exc 3)), ("b", none)] }).2.1 := by
  constructor
  · rfl
  · simp [VideoRecorder.close, closeWriters]

/-- C7 (amended): on teardown, `VideoRecorder.close` walks the writers in
order closing each; when every writer closes cleanly, all of them are closed
and no error escapes; but when one writer's `close()` raises, the exception
propagates out of `close` (it is not merely reported) and the remaining
writers are not closed — only the recorder's `_closed` flag, set before the
loop, is already in place, so a later retry is a no-op. -/
theorem C7_close_teardown :
    (∀ r : VideoRecorder, r.closed = false → (∀ e ∈ r.writer, e.2 = none) →
      VideoRecorder.close r =
        ({ r with closed := true }, r.writer.map Prod.fst, none)) ∧
    (∀ (r : VideoRecorder) (pre : List (String × Option PyErr)) (n : String)
        (e : PyErr) (post : List (String × Option PyErr)),
      r.closed = false → r.writer = pre ++ (n, some e) :: post →
      (∀ x ∈ pre, x.2 = none) →
      VideoRecorder.close r =
        ({ r with closed := true }, pre.map Prod.fst, some e)) := by
  constructor
  · intro r hclosed hok
    unfold VideoRecorder.close
    rw [if_neg (by rw [hclosed]; simp)]
    rw [closeWriters_all_ok r.writer hok]
  · intro r pre n e post hclosed hw hpre
    unfold VideoRecorder.close
    rw [if_neg (by rw [hclosed]; simp)]
    rw [hw, closeWriters_first_fail pre n e post hpre]

/-- Witness for C7 (amended) at concrete recorders. -/
theorem C7_close_teardown_witness :
    VideoRecorder.close { closed := false, writer := [("a", none), ("b", none)] } =
      ({ closed := true, writer := [("a", none), ("b", none)] }, ["a", "b"], none) ∧
    VideoRecorder.close
        { closed := false, writer := [("a", some (PyErr.exc 3)), ("b", none)] } =
      ({ closed := true, writer := [("a", some (PyErr.exc 3)), ("b", none)] },
        [], some (PyErr.exc 3)) := by
  constructor
  · exact C7_close_teardown.1 { closed := false, writer := [("a", none), ("b", none)] }
      rfl (by decide)
  · exact C7_close_teardown.2
      { closed := false, writer := [("a", some (PyErr.exc 3)), ("b", none)] }
      [] "a" (PyErr.exc 3) [("b", none)] rfl rfl (by decide)

/-- C10: `VideoRecorder.close` is idempotent — the first call (failing or
not) leaves `_closed` set, and every subsequent call returns immediately,
closing no writer again and leaving the recorder state unchanged. -/
theorem C10_close_idempotent (r : VideoRecorder) :
    ((VideoRecorder.close r).1.closed = true) ∧
    (VideoRecorder.close (VideoRecorder.close r).1 =
      ((VideoRecorder.close r).1, [], none)) := by
  have h1 : (VideoRecorder.close r).1.closed = true := by
    unfold VideoRecorder.close
    split
    · rename_i h
      exact h
    · rfl
  refine ⟨h1, ?_⟩
  generalize hr1 : (VideoRecorder.close r).1 = r1 at h1 ⊢
  unfold VideoRecorder.close
  rw [if_pos h1]

theorem mem_insertPacket (g : SyncGroup) (s : String) (p : Packet)
    (x : String × Packet) (hx : x ∈ insertPacket g s p) :
    x = (s, p) ∨ (x ∈ g ∧ x.1 ≠ s) := by
  unfold insertPacket at hx
  split at hx
  · rw [List.mem_map] at hx
    obtain ⟨y, hy, hxy⟩ := hx
    by_cases hys : y.1 = s
    · left
      rw [← hxy, if_pos (by simp [hys])]
    · right
      rw [← hxy, if_neg (by simp [hys])]
      exact ⟨hy, hys⟩
  · rename_i hany
    rcases List.mem_append.mp hx with h1 | h1
    · right
      refine ⟨h1, ?_⟩
      intro hxs
      exact hany (by rw [List.any_eq_true]; exact ⟨x, h1, by simp [hxs]⟩)
    · left
      simpa using h1

theorem insertPacket_self_mem (g : SyncGroup) (s : String) (p : Packet) :
    (s, p) ∈ insertPacket g s p := by
  unfold insertPacket
  split
  · rename_i hany
    rw [List.any_eq_true] at hany
    obtain ⟨y, hy, hys⟩ := hany
    rw [List.mem_map]
    exact ⟨y, hy, by rw [if_pos hys]⟩
  · simp

theorem insertPacket_keeps (g : SyncGroup) (s : String) (p : Packet)
    (x : String × Packet) (hx : x ∈ g) (hxs : x.1 ≠ s) :
    x ∈ insertPacket g s p := by
  unfold insertPacket
  split
  · rw [List.mem_map]
    exact ⟨x, hx, by rw [if_neg (by simp [hxs])]⟩
  · exact List.mem_append_left _ hx

theorem insertPacket_keys_nodup (g : SyncGroup) (s : String) (p : Packet)
    (hg : (g.map Prod.fst).Nodup) :
    ((insertPacket g s p).map Prod.fst).Nodup := by
  unfold insertPacket
  split
  · have : (g.map (fun x => if x.1 == s then (s, p) else x)).map Prod.fst =
        g.map Prod.fst := by
      rw [List.map_map]
      apply List.map_congr_left
      intro x _
      by_cases hxs : x.1 = s
      · simp [hxs]
      · simp [hxs]
    rw [this]
    exact hg
  · rename_i hany
    rw [List.map_append]
    simp only [List.map_cons, List.map_nil]
    rw [List.nodup_append]
    refine ⟨hg, List.nodup_singleton s, ?_⟩
    intro a ha hb
    rw [List.mem_singleton] at hb
    subst hb
    rw [List.mem_map] at ha
    obtain ⟨y, hy, hys⟩ := ha
    exact hany (by rw [List.any_eq_true]; exact ⟨y, hy, by simp [hys]⟩)

theorem findGroup_cases (groups : List (Nat × SyncGroup)) (n : Nat) :
    findGroup groups n = [] ∨ (n, findGroup groups n) ∈ groups := by
  unfold findGroup
  cases hf : groups.find? (fun e => e.1 == n) with
  | none => left; rfl
  | some e =>
    right
    have h1 := List.find?_some hf
    have h2 := List.mem_of_find?_eq_some hf
    have : e.1 = n := by simpa using h1
    obtain ⟨k, g⟩ := e
    simp only at this
    subst this
    exact h2

theorem mem_eraseGroup (groups : List (Nat × SyncGroup)) (n : Nat)
    (x : Nat × SyncGroup) :
    x ∈ eraseGroup groups n ↔ x ∈ groups ∧ x.1 ≠ n := by
  unfold eraseGroup
  rw [List.mem_filter]
  simp

theorem mem_evictOld (horizon maxSeen : Nat) (groups : List (Nat × SyncGroup))
    (x : Nat × SyncGroup) :
    x ∈ evictOld horizon maxSeen groups ↔
      x ∈ groups ∧ ¬(x.1 + horizon < maxSeen) := by
  unfold evictOld
  rw [List.mem_filter]
  simp

theorem mem_storeGroup (groups : List (Nat × SyncGroup)) (n : Nat)
    (g : SyncGroup) (x : Nat × SyncGroup) (hx : x ∈ storeGroup groups n g) :
    x = (n, g) ∨ (x ∈ groups ∧ x.1 ≠ n) := by
  unfold storeGroup at hx
  split at hx
  · rw [List.mem_map] at hx
    obtain ⟨y, hy, hxy⟩ := hx
    by_cases hyn : y.1 = n
    · left
      rw [← hxy, if_pos (by simp [hyn])]
    · right
      rw [← hxy, if_neg (by simp [hyn])]
      exact ⟨hy, hyn⟩
  · rename_i hany
    rcases List.mem_append.mp hx with h1 | h1
    · right
      refine ⟨h1, ?_⟩
      intro hxn
      exact hany (by rw [List.any_eq_true]; exact ⟨x, h1, by simp [hxn]⟩)
    · left
      simpa using h1

theorem storeGroup_keys_nodup (groups : List (Nat × SyncGroup)) (n : Nat)
    (g : SyncGroup) (hg : (groups.map Prod.fst).Nodup) :
    ((storeGroup groups n g).map Prod.fst).Nodup := by
  unfold storeGroup
  split
  · have : (groups.map (fun e => if e.1 == n then (n, g) else e)).map Prod.fst =
        groups.map Prod.fst := by
      rw [List.map_map]
      apply List.map_congr_left
      intro x _
      by_cases hxn : x.1 = n
      · simp [hxn]
      · simp [hxn]
    rw [this]
    exact hg
  · rename_i hany
    rw [List.map_append]
    simp only [List.map_cons, List.map_nil]
    rw [List.nodup_append]
    refine ⟨hg, List.nodup_singleton n, ?_⟩
    intro a ha hb
    rw [List.mem_singleton] at hb
    subst hb
    rw [List.mem_map] at ha
    obtain ⟨y, hy, hyn⟩ := ha
    exact hany (by rw [List.any_eq_true]; exact ⟨y, hy, by simp [hyn]⟩)

theorem evictOld_sublist (horizon maxSeen : Nat)
    (groups : List (Nat × SyncGroup)) :
    (evictOld horizon maxSeen groups).Sublist groups :=
  List.filter_sublist groups

theorem eraseGroup_sublist (groups : List (Nat × SyncGroup)) (n : Nat) :
    (eraseGroup groups n).Sublist groups :=
  List.filter_sublist groups

theorem groupComplete_coverage (required : List String) (g : SyncGroup)
    (h : groupComplete required g = true) :
    ∀ s ∈ required, ∃ q, (s, q) ∈ g := by
  unfold groupComplete at h
  rw [List.all_eq_true] at h
  intro s hs
  have := h s hs
  rw [List.any_eq_true] at this
  obtain ⟨y, hy, hkey⟩ := this
  obtain ⟨y1, y2⟩ := y
  simp only [beq_iff_eq] at hkey
  subst hkey
  exact ⟨y2, hy⟩

theorem groupComplete_of_coverage (required : List String) (g : SyncGroup)
    (h : ∀ s ∈ required, ∃ q, (s, q) ∈ g) :
    groupComplete required g = true := by
  unfold groupComplete
  rw [List.all_eq_true]
  intro s hs
  obtain ⟨q, hq⟩ := h s hs
  rw [List.any_eq_true]
  exact ⟨(s, q), hq, by simp⟩

theorem sync_step (horizon : Nat) (required : List String) (seen : List Packet)
    (st : SyncState) (p : Packet) (hwf : SyncWF required seen st) :
    SyncWF required (seen ++ [p]) (sync horizon st p).1 ∧
    (∀ n g, (sync horizon st p).2 = some (n, g) →
      n = p.seq ∧ GoodBundle required (seen ++ [p]) n g) := by
  have hg0 : ∀ x ∈ findGroup st.groups p.seq,
      x.2.stream = x.1 ∧ x.2.seq = p.seq ∧ x.2 ∈ seen := by
    rcases findGroup_cases st.groups p.seq with hc | hc
    · rw [hc]; simp
    · intro x hx
      exact hwf.entries _ hc x hx
  have hg0n : ((findGroup st.groups p.seq).map Prod.fst).Nodup := by
    rcases findGroup_cases st.groups p.seq with hc | hc
    · rw [hc]; exact List.nodup_nil
    · exact hwf.groupKeysNodup _ hc
  have hg1keys : ((insertPacket (findGroup st.groups p.seq) p.stream p).map
      Prod.fst).Nodup := insertPacket_keys_nodup _ _ _ hg0n
  have hg1entries : ∀ x ∈ insertPacket (findGroup st.groups p.seq) p.stream p,
      x.2.stream = x.1 ∧ x.2.seq = p.seq ∧ x.2 ∈ seen ++ [p] := by
    intro x hx
    rcases mem_insertPacket _ _ _ x hx with hcase | ⟨hcase, _⟩
    · subst hcase
      exact ⟨rfl, rfl, by simp⟩
    · obtain ⟨a, b, c⟩ := hg0 x hcase
      exact ⟨a, b, List.mem_append_left _ c⟩
  unfold sync
  by_cases hcomp : groupComplete st.required
      (insertPacket (findGroup st.groups p.seq) p.stream p) = true
  · rw [if_pos hcomp]
    constructor
    · refine ⟨hwf.req, ?_, ?_, ?_, ?_⟩
      · exact List.Nodup.sublist
          (List.Sublist.map Prod.fst
            ((evictOld_sublist _ _ _).trans (eraseGroup_sublist _ _)))
          hwf.keysNodup
      · intro e he
        simp only at he
        have : e ∈ st.groups :=
          ((eraseGroup_sublist _ _).subset
            (((mem_evictOld _ _ _ e).mp he).1))
        exact hwf.groupKeysNodup e this
      · intro e he x hx
        simp only at he
        have : e ∈ st.groups :=
          ((eraseGroup_sublist _ _).subset
            (((mem_evictOld _ _ _ e).mp he).1))
        obtain ⟨a, b, c⟩ := hwf.entries e this x hx
        exact ⟨a, b, List.mem_append_left _ c⟩
      · intro e he
        simp only at he
        have : e ∈ st.groups :=
          ((eraseGroup_sublist _ _).subset
            (((mem_evictOld _ _ _ e).mp he).1))
        exact hwf.incomplete e this
    · intro n g hng
      simp only [Option.some_inj, Prod.mk.injEq] at hng
      obtain ⟨hn, hg⟩ := hng
      subst hn
      subst hg
      refine ⟨rfl, hg1keys, ?_, hg1entries⟩
      have := groupComplete_coverage _ _ hcomp
      rw [hwf.req] at this
      exact this
  · rw [if_neg hcomp]
    constructor
    · refine ⟨hwf.req, ?_, ?_, ?_, ?_⟩
      · exact List.Nodup.sublist
          (List.Sublist.map Prod.fst (evictOld_sublist _ _ _))
          (storeGroup_keys_nodup _ _ _ hwf.keysNodup)
      · intro e he
        simp only at he
        have := ((mem_evictOld _ _ _ e).mp he).1
        rcases mem_storeGroup _ _ _ e this with hcase | ⟨hcase, _⟩
        · subst hcase
          exact hg1keys
        · exact hwf.groupKeysNodup e hcase
      · intro e he x hx
        simp only at he
        have := ((mem_evictOld _ _ _ e).mp he).1
        rcases mem_storeGroup _ _ _ e this with hcase | ⟨hcase, _⟩
        · subst hcase
          exact hg1entries x hx
        · obtain ⟨a, b, c⟩ := hwf.entries e hcase x hx
          exact ⟨a, b, List.mem_append_left _ c⟩
      · intro e he
        simp only at he
        have := ((mem_evictOld _ _ _ e).mp he).1
        rcases mem_storeGroup _ _ _ e this with hcase | ⟨hcase, _⟩
        · subst hcase
          simp only
          rw [← hwf.req]
          exact Bool.eq_false_iff.mpr hcomp
        · exact hwf.incomplete e hcase
    · intro n g hng
      simp at hng

theorem GoodBundle.mono (required : List String) (evs evs' : List Packet)
    (n : Nat) (g : SyncGroup) (hsub : ∀ q ∈ evs, q ∈ evs')
    (h : GoodBundle required evs n g) : GoodBundle required evs' n g := by
  obtain ⟨a, b, c⟩ := h
  refine ⟨a, b, ?_⟩
  intro x hx
  obtain ⟨u, v, w⟩ := c x hx
  exact ⟨u, v, hsub _ w⟩

theorem initSync_wf (required : List String) :
    SyncWF required [] (initSync required) := by
  refine ⟨rfl, ?_, ?_, ?_, ?_⟩ <;> simp [initSync]

theorem runSync_wf (horizon : Nat) (required : List String) :
    ∀ (events : List Packet) (st : SyncState) (seen : List Packet),
    SyncWF required seen st →
    SyncWF required (seen ++ events) (runSync horizon st events).1 ∧
    ∀ e ∈ (runSync horizon st events).2,
      GoodBundle required (seen ++ events) e.1 e.2 := by
  intro events
  induction events with
  | nil =>
    intro st seen hwf
    constructor
    · simpa using hwf
    · simp [runSync]
  | cons p ps ih =>
    intro st seen hwf
    obtain ⟨hwf', hem⟩ := sync_step horizon required seen st p hwf
    obtain ⟨hwfF, hemF⟩ := ih (sync horizon st p).1 (seen ++ [p]) hwf'
    have hassoc : seen ++ [p] ++ ps = seen ++ p :: ps := by simp
    constructor
    · rw [hassoc] at hwfF
      exact hwfF
    · intro e he
      show GoodBundle required (seen ++ p :: ps) e.1 e.2
      simp only [runSync, new_packet] at he
      rcases List.mem_append.mp he with h1 | h1
      · cases hsem : (sync horizon st p).2 with
        | none => rw [hsem] at h1; simp at h1
        | some e' =>
          rw [hsem] at h1
          simp only [Option.toList_some, List.mem_singleton] at h1
          subst h1
          obtain ⟨hn, hgb⟩ := hem e.1 e.2 (by rw [hsem])
          refine GoodBundle.mono required (seen ++ [p]) (seen ++ p :: ps) _ _ ?_ hgb
          intro q hq
          rcases List.mem_append.mp hq with h2 | h2
          · exact List.mem_append_left _ h2
          · rw [List.mem_singleton] at h2
            subst h2
            exact List.mem_append_right _ (by simp)
      · have := hemF e h1
        rw [hassoc] at this
        exact this

theorem storeGroup_self_mem (groups : List (Nat × SyncGroup)) (n : Nat)
    (g : SyncGroup) : (n, g) ∈ storeGroup groups n g := by
  unfold storeGroup
  split
  · rename_i hany
    rw [List.any_eq_true] at hany
    obtain ⟨y, hy, hyn⟩ := hany
    rw [List.mem_map]
    exact ⟨y, hy, by rw [if_pos hyn]⟩
  · simp

theorem storeGroup_keeps (groups : List (Nat × SyncGroup)) (n : Nat)
    (g : SyncGroup) (x : Nat × SyncGroup) (hx : x ∈ groups) (hxn : x.1 ≠ n) :
    x ∈ storeGroup groups n g := by
  unfold storeGroup
  split
  · rw [List.mem_map]
    exact ⟨x, hx, by rw [if_neg (by simp [hxn])]⟩
  · exact List.mem_append_left _ hx

theorem findGroup_eq_of_mem (groups : List (Nat × SyncGroup)) (n : Nat)
    (g : SyncGroup) (hnd : (groups.map Prod.fst).Nodup) (hmem : (n, g) ∈ groups) :
    findGroup groups n = g := by
  induction groups with
  | nil => simp at hmem
  | cons e es ih =>
    rw [List.map_cons, List.nodup_cons] at hnd
    by_cases hen : e.1 = n
    · have hfind : findGroup (e :: es) n = e.2 := by
        unfold findGroup
        rw [List.find?_cons_of_pos _ (by simp [hen])]
      rw [hfind]
      rcases List.mem_cons.mp hmem with hcase | hcase
      · rw [← hcase]
      · exfalso
        apply hnd.1
        rw [hen, List.mem_map]
        exact ⟨(n, g), hcase, rfl⟩
    · have hfind : findGroup (e :: es) n = findGroup es n := by
        unfold findGroup
        rw [List.find?_cons_of_neg _ (by simp [hen])]
      rw [hfind]
      rcases List.mem_cons.mp hmem with hcase | hcase
      · exfalso
        apply hen
        rw [← hcase]
      · exact ih hnd.2 hcase

theorem hasPendingEntry_iff (st : SyncState) (n : Nat) (s : String) :
    hasPendingEntry st n s = true ↔
      ∃ g, (n, g) ∈ st.groups ∧ ∃ q, (s, q) ∈ g := by
  unfold hasPendingEntry
  rw [List.any_eq_true]
  constructor
  · rintro ⟨e, he, hcond⟩
    rw [Bool.and_eq_true] at hcond
    obtain ⟨h1, h2⟩ := hcond
    have hen : e.1 = n := by simpa using h1
    rw [List.any_eq_true] at h2
    obtain ⟨x, hx, hxs⟩ := h2
    have hxs' : x.1 = s := by simpa using hxs
    refine ⟨e.2, ?_, x.2, ?_⟩
    · rw [← hen]
      exact he
    · rw [← hxs']
      exact hx
  · rintro ⟨g, hg, q, hq⟩
    refine ⟨(n, g), hg, ?_⟩
    rw [Bool.and_eq_true]
    refine ⟨by simp, ?_⟩
    rw [List.any_eq_true]
    exact ⟨(s, q), hq, by simp⟩

theorem evictOld_eq_self (horizon maxSeen : Nat)
    (groups : List (Nat × SyncGroup)) (h : maxSeen ≤ horizon) :
    evictOld horizon maxSeen groups = groups := by
  unfold evictOld
  apply List.filter_eq_self.mpr
  intro e _
  simp only [Bool.not_eq_true']
  rw [decide_eq_false_iff_not]
  omega

theorem pendNat_le_one (st : SyncState) (n : Nat) (s : String) :
    pendNat st n s ≤ 1 := by
  unfold pendNat
  cases hasPendingEntry st n s <;> simp

theorem pendNat_eq_one (st : SyncState) (n : Nat) (s : String)
    (h : hasPendingEntry st n s = true) : pendNat st n s = 1 := by
  unfold pendNat
  rw [h]
  rfl

theorem pendNat_eq_zero (st : SyncState) (n : Nat) (s : String)
    (h : ¬hasPendingEntry st n s = true) : pendNat st n s = 0 := by
  unfold pendNat
  rw [Bool.not_eq_true] at h
  rw [h]
  rfl

theorem sync_count_step (horizon n : Nat) (s : String) (required : List String)
    (seen : List Packet) (st : SyncState) (p : Packet)
    (hwf : SyncWF required seen st) (hs : s ∈ required) :
    emCount (sync horizon st p).2 n + pendNat (sync horizon st p).1 n s ≤
      pendNat st n s + (if p.seq = n ∧ p.stream = s then 1 else 0) := by
  have hg1mem : ∀ q : Packet,
      (s, q) ∈ insertPacket (findGroup st.groups p.seq) p.stream p →
      p.stream = s ∨ hasPendingEntry st p.seq s = true := by
    intro q hq
    rcases mem_insertPacket _ _ _ (s, q) hq with hcase | ⟨hcase, _⟩
    · left
      rw [Prod.mk.injEq] at hcase
      exact hcase.1.symm
    · right
      rcases findGroup_cases st.groups p.seq with hfc | hfc
      · rw [hfc] at hcase
        simp at hcase
      · rw [hasPendingEntry_iff]
        exact ⟨findGroup st.groups p.seq, hfc, q, hcase⟩
  unfold sync
  by_cases hcomp : groupComplete st.required
      (insertPacket (findGroup st.groups p.seq) p.stream p) = true
  · rw [if_pos hcomp]
    simp only [emCount]
    by_cases hpn : p.seq = n
    · rw [if_pos hpn]
      have hpend' : pendNat
          ({ st with
              groups := evictOld horizon (max st.maxSeen p.seq)
                (eraseGroup st.groups p.seq),
              maxSeen := max st.maxSeen p.seq,
              lowWaterMark := some p.seq } : SyncState) n s = 0 := by
        apply pendNat_eq_zero
        rw [hasPendingEntry_iff]
        rintro ⟨g, hg, q, hq⟩
        simp only at hg
        have := ((mem_eraseGroup _ _ _).mp ((mem_evictOld _ _ _ _).mp hg).1).2
        simp only at this
        exact this (by omega)
      rw [hpend']
      by_cases hps : p.stream = s
      · rw [if_pos ⟨hpn, hps⟩]
        omega
      · have hcov := groupComplete_coverage _ _ hcomp s (by rw [hwf.req]; exact hs)
        obtain ⟨q, hq⟩ := hcov
        rcases hg1mem q hq with hcase | hcase
        · exact absurd hcase hps
        · rw [pendNat_eq_one st n s (by rw [← hpn]; exact hcase)]
          omega
    · rw [if_neg hpn]
      cases hb : hasPendingEntry
          ({ st with
              groups := evictOld horizon (max st.maxSeen p.seq)
                (eraseGroup st.groups p.seq),
              maxSeen := max st.maxSeen p.seq,
              lowWaterMark := some p.seq } : SyncState) n s with
      | false =>
        rw [pendNat_eq_zero _ _ _ (by rw [hb]; simp)]
        omega
      | true =>
        rw [hasPendingEntry_iff] at hb
        obtain ⟨g, hg, q, hq⟩ := hb
        simp only at hg
        have hmem := ((mem_eraseGroup _ _ _).mp ((mem_evictOld _ _ _ _).mp hg).1).1
        have hpend : hasPendingEntry st n s = true := by
          rw [hasPendingEntry_iff]
          exact ⟨g, hmem, q, hq⟩
        rw [pendNat_eq_one st n s hpend]
        have := pendNat_le_one
          ({ st with
              groups := evictOld horizon (max st.maxSeen p.seq)
                (eraseGroup st.groups p.seq),
              maxSeen := max st.maxSeen p.seq,
              lowWaterMark := some p.seq } : SyncState) n s
        omega
  · rw [if_neg hcomp]
    simp only [emCount]
    cases hb : hasPendingEntry
        ({ st with
            groups := evictOld horizon (max st.maxSeen p.seq)
              (storeGroup st.groups p.seq
                (insertPacket (findGroup st.groups p.seq) p.stream p)),
            maxSeen := max st.maxSeen p.seq } : SyncState) n s with
    | false =>
      rw [pendNat_eq_zero _ _ _ (by rw [hb]; simp)]
      omega
    | true =>
      have hb1 : pendNat
          ({ st with
              groups := evictOld horizon (max st.maxSeen p.seq)
                (storeGroup st.groups p.seq
                  (insertPacket (findGroup st.groups p.seq) p.stream p)),
              maxSeen := max st.maxSeen p.seq } : SyncState) n s = 1 :=
        pendNat_eq_one _ _ _ hb
      rw [hb1]
      rw [hasPendingEntry_iff] at hb
      obtain ⟨g, hg, q, hq⟩ := hb
      simp only at hg
      have hmem := ((mem_evictOld _ _ _ _).mp hg).1
      rcases mem_storeGroup _ _ _ _ hmem with hcase | ⟨hcase, hne⟩
      · rw [Prod.mk.injEq] at hcase
        obtain ⟨hn1, hg1⟩ := hcase
        subst hg1
        rcases hg1mem q hq with hps | hpend
        · rw [if_pos ⟨hn1.symm, hps⟩]
          omega
        · rw [pendNat_eq_one st n s (by rw [hn1]; exact hpend)]
          omega
      · have hpend : hasPendingEntry st n s = true := by
          rw [hasPendingEntry_iff]
          exact ⟨g, hcase, q, hq⟩
        rw [pendNat_eq_one st n s hpend]
        omega

theorem emCount_toList_count (em : Option (Nat × SyncGroup)) (n : Nat) :
    (em.toList.map Prod.fst).count n = emCount em n := by
  cases em with
  | none => rfl
  | some e =>
    simp only [Option.toList_some, List.map_cons, List.map_nil, emCount]
    by_cases h : e.1 = n
    · rw [if_pos h, h]
      simp
    · rw [if_neg h]
      simp [List.count_cons, h]

theorem pendNat_initSync (required : List String) (n : Nat) (s : String) :
    pendNat (initSync required) n s = 0 := by
  apply pendNat_eq_zero
  rw [hasPendingEntry_iff]
  rintro ⟨g, hg, _⟩
  simp [initSync] at hg

theorem runSync_count (horizon n : Nat) (s : String) (required : List String)
    (hs : s ∈ required) :
    ∀ (events : List Packet) (st : SyncState) (seen : List Packet),
    SyncWF required seen st →
    ((runSync horizon st events).2.map Prod.fst).count n +
        pendNat (runSync horizon st events).1 n s ≤
      pendNat st n s +
        (events.filter (fun p => p.seq == n && p.stream == s)).length := by
  intro events
  induction events with
  | nil =>
    intro st seen _
    simp [runSync]
  | cons p ps ih =>
    intro st seen hwf
    obtain ⟨hwf', _⟩ := sync_step horizon required seen st p hwf
    have hstep := sync_count_step horizon n s required seen st p hwf hs
    have hrec := ih (sync horizon st p).1 (seen ++ [p]) hwf'
    have hsplit : ((runSync horizon st (p :: ps)).2.map Prod.fst).count n =
        emCount (sync horizon st p).2 n +
          ((runSync horizon (sync horizon st p).1 ps).2.map Prod.fst).count n := by
      show (((new_packet horizon st p).2.toList ++
          (runSync horizon (new_packet horizon st p).1 ps).2).map Prod.fst).count n = _
      rw [List.map_append, List.count_append, emCount_toList_count]
      rfl
    have hfinal : (runSync horizon st (p :: ps)).1 =
        (runSync horizon (sync horizon st p).1 ps).1 := rfl
    have hfilter : ((p :: ps).filter
          (fun p => p.seq == n && p.stream == s)).length =
        (if p.seq = n ∧ p.stream = s then 1 else 0) +
          (ps.filter (fun p => p.seq == n && p.stream == s)).length := by
      by_cases hc : p.seq = n ∧ p.stream = s
      · rw [if_pos hc]
        rw [List.filter_cons_of_pos (by simp [hc.1, hc.2])]
        simp [Nat.add_comm]
      · rw [if_neg hc]
        rw [List.filter_cons_of_neg (by simpa using fun a b => hc ⟨a, b⟩)]
        simp
    rw [hsplit, hfinal, hfilter]
    omega

theorem sync_maxSeen (horizon : Nat) (st : SyncState) (p : Packet) :
    (sync horizon st p).1.maxSeen = max st.maxSeen p.seq := by
  unfold sync
  split <;> rfl

theorem sync_pending_preserved (horizon n : Nat) (s : String) (st : SyncState)
    (p : Packet) (hkeys : (st.groups.map Prod.fst).Nodup)
    (hmax : max st.maxSeen p.seq ≤ n + horizon)
    (hpend : hasPendingEntry st n s = true)
    (hnoem : emCount (sync horizon st p).2 n = 0) :
    hasPendingEntry (sync horizon st p).1 n s = true := by
  rw [hasPendingEntry_iff] at hpend
  obtain ⟨g, hg, q, hq⟩ := hpend
  rw [hasPendingEntry_iff]
  unfold sync at hnoem ⊢
  by_cases hcomp : groupComplete st.required
      (insertPacket (findGroup st.groups p.seq) p.stream p) = true
  · rw [if_pos hcomp] at hnoem ⊢
    simp only [emCount] at hnoem
    have hpn : p.seq ≠ n := by
      intro hc
      rw [if_pos hc] at hnoem
      omega
    refine ⟨g, ?_, q, hq⟩
    simp only
    rw [mem_evictOld]
    refine ⟨?_, by simp; omega⟩
    rw [mem_eraseGroup]
    exact ⟨hg, by simpa using fun hc => hpn hc.symm⟩
  · rw [if_neg hcomp]
    by_cases hpn : p.seq = n
    · have hfg : findGroup st.groups p.seq = g := by
        rw [hpn]
        exact findGroup_eq_of_mem _ n g hkeys hg
      by_cases hps : s = p.stream
      · refine ⟨insertPacket (findGroup st.groups p.seq) p.stream p, ?_, p, ?_⟩
        · simp only
          rw [mem_evictOld]
          refine ⟨?_, by simp; omega⟩
          rw [← hpn]
          exact storeGroup_self_mem _ _ _
        · rw [hps]
          exact insertPacket_self_mem _ _ _
      · refine ⟨insertPacket (findGroup st.groups p.seq) p.stream p, ?_, q, ?_⟩
        · simp only
          rw [mem_evictOld]
          refine ⟨?_, by simp; omega⟩
          rw [← hpn]
          exact storeGroup_self_mem _ _ _
        · apply insertPacket_keeps
          · rw [hfg]
            exact hq
          · simpa using hps
    · refine ⟨g, ?_, q, hq⟩
      simp only
      rw [mem_evictOld]
      refine ⟨?_, by simp; omega⟩
      apply storeGroup_keeps
      · exact hg
      · simpa using fun hc => hpn hc.symm

theorem sync_pending_new (horizon n : Nat) (st : SyncState) (p : Packet)
    (hmax : max st.maxSeen p.seq ≤ n + horizon) (hpn : p.seq = n)
    (hnoem : emCount (sync horizon st p).2 n = 0) :
    hasPendingEntry (sync horizon st p).1 n p.stream = true := by
  rw [hasPendingEntry_iff]
  unfold sync at hnoem ⊢
  by_cases hcomp : groupComplete st.required
      (insertPacket (findGroup st.groups p.seq) p.stream p) = true
  · rw [if_pos hcomp] at hnoem
    simp only [emCount] at hnoem
    rw [if_pos hpn] at hnoem
    omega
  · rw [if_neg hcomp]
    refine ⟨insertPacket (findGroup st.groups p.seq) p.stream p, ?_,
      p, insertPacket_self_mem _ _ _⟩
    simp only
    rw [mem_evictOld]
    refine ⟨?_, by simp; omega⟩
    rw [← hpn]
    exact storeGroup_self_mem _ _ _

theorem runSync_pending_cov (horizon n : Nat) (required : List String) :
    ∀ (events : List Packet) (st : SyncState) (seen : List Packet),
    SyncWF required seen st →
    (∀ p ∈ events, p.seq ≤ n + horizon) →
    st.maxSeen ≤ n + horizon →
    (∀ s ∈ required, (∃ p ∈ seen, p.stream = s ∧ p.seq = n) →
      hasPendingEntry st n s = true) →
    (n ∈ (runSync horizon st events).2.map Prod.fst) ∨
    (∀ s ∈ required, (∃ p ∈ seen ++ events, p.stream = s ∧ p.seq = n) →
      hasPendingEntry (runSync horizon st events).1 n s = true) := by
  intro events
  induction events with
  | nil =>
    intro st seen _ _ _ hcov
    right
    simpa using hcov
  | cons p ps ih =>
    intro st seen hwf hseq hmax hcov
    have hmax' : (sync horizon st p).1.maxSeen ≤ n + horizon := by
      rw [sync_maxSeen]
      have := hseq p (by simp)
      omega
    have hmaxraw : max st.maxSeen p.seq ≤ n + horizon := by
      have := hseq p (by simp)
      omega
    obtain ⟨hwf', _⟩ := sync_step horizon required seen st p hwf
    by_cases hem : emCount (sync horizon st p).2 n = 0
    · have hcov' : ∀ s ∈ required, (∃ q ∈ seen ++ [p], q.stream = s ∧ q.seq = n) →
          hasPendingEntry (sync horizon st p).1 n s = true := by
        intro s hs ⟨q, hq, hqs, hqn⟩
        rcases List.mem_append.mp hq with h1 | h1
        · exact sync_pending_preserved horizon n s st p hwf.keysNodup hmaxraw
            (hcov s hs ⟨q, h1, hqs, hqn⟩) hem
        · rw [List.mem_singleton] at h1
          rw [h1] at hqs hqn
          rw [← hqs]
          exact sync_pending_new horizon n st p hmaxraw hqn hem
      rcases ih (sync horizon st p).1 (seen ++ [p]) hwf'
          (fun q hq => hseq q (List.mem_cons_of_mem p hq)) hmax' hcov' with h | h
      · left
        show n ∈ ((new_packet horizon st p).2.toList ++
            (runSync horizon (new_packet horizon st p).1 ps).2).map Prod.fst
        rw [List.map_append]
        exact List.mem_append_right _ h
      · right
        intro s hs hex
        have : ∃ q ∈ seen ++ [p] ++ ps, q.stream = s ∧ q.seq = n := by
          obtain ⟨q, hq, hqp⟩ := hex
          refine ⟨q, ?_, hqp⟩
          simpa using hq
        exact h s hs this
    · left
      show n ∈ ((new_packet horizon st p).2.toList ++
          (runSync horizon (new_packet horizon st p).1 ps).2).map Prod.fst
      rw [List.map_append]
      apply List.mem_append_left
      cases hsem : (sync horizon st p).2 with
      | none =>
        exfalso
        apply hem
        simp [emCount, hsem]
      | some e =>
        simp only [emCount, hsem] at hem
        by_cases hen : e.1 = n
        · show n ∈ ((new_packet horizon st p).2.toList.map Prod.fst)
          simp only [new_packet, hsem, Option.toList_some, List.map_cons]
          rw [hen]
          simp
        · exfalso
          apply hem
          rw [if_neg hen]
      
theorem runSync_completeness (horizon n : Nat) (required : List String)
    (events : List Packet) (hreq : required ≠ [])
    (hall : ∀ s ∈ required, ∃ p ∈ events, p.stream = s ∧ p.seq = n)
    (hbound : ∀ p ∈ events, p.seq ≤ n + horizon) :
    n ∈ (runSync horizon (initSync required) events).2.map Prod.fst := by
  rcases runSync_pending_cov horizon n required events (initSync required) []
      (initSync_wf required) hbound (by simp [initSync])
      (by simp) with h | hcov
  · exact h
  · exfalso
    obtain ⟨s₀, hs₀⟩ := List.exists_mem_of_ne_nil required hreq
    have h₀ := hcov s₀ hs₀ (by simpa using hall s₀ hs₀)
    rw [hasPendingEntry_iff] at h₀
    obtain ⟨g, hgmem, _⟩ := h₀
    have hwfF := (runSync_wf horizon required events (initSync required) []
      (initSync_wf required)).1
    have hcomplete : groupComplete required g = true := by
      apply groupComplete_of_coverage
      intro s hs
      have h₁ := hcov s hs (by simpa using hall s hs)
      rw [hasPendingEntry_iff] at h₁
      obtain ⟨g', hg'mem, q, hq⟩ := h₁
      have hgg : g' = g := by
        have e1 := findGroup_eq_of_mem _ n g hwfF.keysNodup hgmem
        have e2 := findGroup_eq_of_mem _ n g' hwfF.keysNodup hg'mem
        rw [e1] at e2
        exact e2.symm
      exact ⟨q, hgg ▸ hq⟩
    have hinc := hwfF.incomplete (n, g) hgmem
    simp only at hinc
    rw [hcomplete] at hinc
    simp at hinc

/-- C1: for every interleaving of packets arriving at a synchronizer with a
fixed set of required stream names: a bundle emitted for sequence number `n`
holds exactly one packet per stream name, covers every required stream, and
each held packet was actually received on that stream with that sequence
number (so emission implies receipt on every required stream); a sequence
number missing a packet on some required stream throughout the run is never
emitted; when each required stream delivers `n` at most once, `n` is emitted
at most once; and when every required stream delivers `n` and no packet
outruns `n` by more than the eviction horizon (the gap is filled before
eviction), `n` is emitted. -/
theorem C1_sequence_sync (horizon : Nat) (required : List String)
    (events : List Packet) :
    (∀ e ∈ (runSync horizon (initSync required) events).2,
      (e.2.map Prod.fst).Nodup ∧
      (∀ s ∈ required, ∃ q, (s, q) ∈ e.2) ∧
      (∀ x ∈ e.2, x.2.stream = x.1 ∧ x.2.seq = e.1 ∧ x.2 ∈ events)) ∧
    ((∀ p ∈ events, p.stream ∈ required) →
      ∀ e ∈ (runSync horizon (initSync required) events).2,
        ∀ x ∈ e.2, x.1 ∈ required) ∧
    (∀ (n : Nat) (s : String), s ∈ required →
      (∀ p ∈ events, ¬(p.stream = s ∧ p.seq = n)) →
      n ∉ (runSync horizon (initSync required) events).2.map Prod.fst) ∧
    (∀ (n : Nat) (s : String), s ∈ required →
      (events.filter (fun p => p.seq == n && p.stream == s)).length ≤ 1 →
      ((runSync horizon (initSync required) events).2.map Prod.fst).count n ≤ 1) ∧
    (∀ n : Nat, required ≠ [] →
      (∀ s ∈ required, ∃ p ∈ events, p.stream = s ∧ p.seq = n) →
      (∀ p ∈ events, p.seq ≤ n + horizon) →
      n ∈ (runSync horizon (initSync required) events).2.map Prod.fst) := by
  have hrw := runSync_wf horizon required events (initSync required) []
    (initSync_wf required)
  have hbundle : ∀ e ∈ (runSync horizon (initSync required) events).2,
      (e.2.map Prod.fst).Nodup ∧
      (∀ s ∈ required, ∃ q, (s, q) ∈ e.2) ∧
      (∀ x ∈ e.2, x.2.stream = x.1 ∧ x.2.seq = e.1 ∧ x.2 ∈ events) := by
    intro e he
    have := hrw.2 e he
    simpa [GoodBundle] using this
  refine ⟨hbundle, ?_, ?_, ?_, ?_⟩
  · intro hstr e he x hx
    obtain ⟨hstream, _, hmem⟩ := (hbundle e he).2.2 x hx
    rw [← hstream]
    exact hstr _ hmem
  · intro n s hs hnone hmem
    rw [List.mem_map] at hmem
    obtain ⟨e, he, hen⟩ := hmem
    obtain ⟨q, hq⟩ := (hbundle e he).2.1 s hs
    obtain ⟨hstream, hseq, hmem'⟩ := (hbundle e he).2.2 (s, q) hq
    exact hnone q hmem' ⟨hstream, by rw [hseq, hen]⟩
  · intro n s hs hlen
    have hcnt := runSync_count horizon n s required hs events (initSync required)
      [] (initSync_wf required)
    rw [pendNat_initSync] at hcnt
    omega
  · intro n hreq hall hbound
    exact runSync_completeness horizon n required events hreq hall hbound

/-- Witness for C1 at a concrete two-stream run. -/
theorem C1_sequence_sync_witness :
    ((0 : Nat) ∈ (runSync 5 (initSync ["a", "b"])
        [{ stream := "a", seq := 0, payload := 0 },
          { stream := "b", seq := 0, payload := 0 }]).2.map Prod.fst) ∧
    (((runSync 5 (initSync ["a", "b"])
        [{ stream := "a", seq := 0, payload := 0 },
          { stream := "b", seq := 0, payload := 0 }]).2.map Prod.fst).count 0 ≤ 1) ∧
    ((1 : Nat) ∉ (runSync 5 (initSync ["a", "b"])
        [{ stream := "a", seq := 0, payload := 0 },
          { stream := "b", seq := 0, payload := 0 }]).2.map Prod.fst) ∧
    (∀ x ∈ (runSync 5 (initSync ["a", "b"])
          [{ stream := "a", seq := 0, payload := 0 },
            { stream := "b", seq := 0, payload := 0 }]).2,
      ∀ y ∈ x.2, y.1 ∈ ["a", "b"]) :=
  ⟨(C1_sequence_sync 5 ["a", "b"]
      [{ stream := "a", seq := 0, payload := 0 },
        { stream := "b", seq := 0, payload := 0 }]).2.2.2.2 0 (by decide)
      (by decide) (by decide),
    (C1_sequence_sync 5 ["a", "b"]
      [{ stream := "a", seq := 0, payload := 0 },
        { stream := "b", seq := 0, payload := 0 }]).2.2.2.1 0 "a" (by decide)
      (by decide),
    (C1_sequence_sync 5 ["a", "b"]
      [{ stream := "a", seq := 0, payload := 0 },
        { stream := "b", seq := 0, payload := 0 }]).2.2.1 1 "a" (by decide)
      (by decide),
    (C1_sequence_sync 5 ["a", "b"]
      [{ stream := "a", seq := 0, payload := 0 },
        { stream := "b", seq := 0, payload := 0 }]).2.1 (by decide)⟩

theorem sync_horizon_inv (horizon : Nat) (st : SyncState) (p : Packet)
    (hinv : ∀ e ∈ st.groups, st.maxSeen ≤ e.1 + horizon ∧ e.1 ≤ st.maxSeen) :
    ∀ e ∈ (sync horizon st p).1.groups,
      (sync horizon st p).1.maxSeen ≤ e.1 + horizon ∧
      e.1 ≤ (sync horizon st p).1.maxSeen := by
  unfold sync
  split
  · intro e he
    simp only at he ⊢
    obtain ⟨hmem, hkeep⟩ := (mem_evictOld _ _ _ _).mp he
    have := hinv e ((mem_eraseGroup _ _ _).mp hmem).1
    omega
  · intro e he
    simp only at he ⊢
    obtain ⟨hmem, hkeep⟩ := (mem_evictOld _ _ _ _).mp he
    rcases mem_storeGroup _ _ _ _ hmem with hcase | ⟨hcase, _⟩
    · have : e.1 = p.seq := by rw [hcase]
      omega
    · have := hinv e hcase
      omega

theorem runSync_horizon_inv (horizon : Nat) :
    ∀ (events : List Packet) (st : SyncState),
    (∀ e ∈ st.groups, st.maxSeen ≤ e.1 + horizon ∧ e.1 ≤ st.maxSeen) →
    ∀ e ∈ (runSync horizon st events).1.groups,
      (runSync horizon st events).1.maxSeen ≤ e.1 + horizon ∧
      e.1 ≤ (runSync horizon st events).1.maxSeen := by
  intro events
  induction events with
  | nil => intro st hinv; exact hinv
  | cons p ps ih =>
    intro st hinv
    exact ih (sync horizon st p).1 (sync_horizon_inv horizon st p hinv)

theorem runSync_maxSeen (horizon : Nat) :
    ∀ (events : List Packet) (st : SyncState),
    (runSync horizon st events).1.maxSeen =
      events.foldl (fun m p => max m p.seq) st.maxSeen := by
  intro events
  induction events with
  | nil => intro st; rfl
  | cons p ps ih =>
    intro st
    show (runSync horizon (new_packet horizon st p).1 ps).1.maxSeen = _
    rw [ih]
    simp only [List.foldl_cons]
    congr 1
    exact sync_maxSeen horizon st p

theorem foldl_max_range (k : Nat) :
    (List.range (k + 1)).foldl (fun m i => max m i) 0 = k := by
  induction k with
  | zero => rfl
  | succ k ih =>
    rw [List.range_succ, List.foldl_append, ih]
    simp only [List.foldl_cons, List.foldl_nil]
    omega

theorem groups_length_bound (horizon : Nat) (st : SyncState)
    (hnd : (st.groups.map Prod.fst).Nodup)
    (hinv : ∀ e ∈ st.groups, st.maxSeen ≤ e.1 + horizon ∧ e.1 ≤ st.maxSeen) :
    st.groups.length ≤ horizon + 1 := by
  have hsub : st.groups.map Prod.fst ⊆
      List.range' (st.maxSeen - horizon) (horizon + 1) := by
    intro k hk
    rw [List.mem_map] at hk
    obtain ⟨e, he, hek⟩ := hk
    have := hinv e he
    rw [List.mem_range'_1]
    omega
  have := nodup_subset_length_le _ _ hnd hsub
  rw [List.length_map, List.length_range'] at this
  exact this

theorem aPkts_stream : ∀ p ∈ aPkts, p.stream = "a" := by
  intro p hp
  unfold aPkts at hp
  rw [List.mem_map] at hp
  obtain ⟨i, _, hip⟩ := hp
  rw [← hip]

theorem aPkts_maxSeen (horizon : Nat) :
    (runSync horizon (initSync ["a", "b"]) aPkts).1.maxSeen = 1000 := by
  rw [runSync_maxSeen]
  show (aPkts.foldl (fun m p => max m p.seq) 0) = 1000
  unfold aPkts
  rw [List.foldl_map]
  exact foldl_max_range 1000

/-- C4: for every run, every pending group's sequence number is within the
eviction horizon of the highest sequence number observed (anything older has
been evicted, so the pending set stays bounded by horizon + 1 groups); in
particular, feeding stream "a" sequence numbers 0 through 1000 while stream
"b" never delivers leaves the group for sequence number 0 evicted — not
retained — and sequence number 0 is never emitted. -/
theorem C4_bounded_eviction :
    (∀ (horizon : Nat) (required : List String) (events : List Packet),
      ∀ e ∈ (runSync horizon (initSync required) events).1.groups,
        (runSync horizon (initSync required) events).1.maxSeen ≤ e.1 + horizon ∧
        e.1 ≤ (runSync horizon (initSync required) events).1.maxSeen) ∧
    (∀ (horizon : Nat) (required : List String) (events : List Packet),
      (runSync horizon (initSync required) events).1.groups.length ≤
        horizon + 1) ∧
    (∀ horizon : Nat, horizon < 1000 →
      (∀ g : SyncGroup, ((0 : Nat), g) ∉
        (runSync horizon (initSync ["a", "b"]) aPkts).1.groups) ∧
      ((0 : Nat) ∉ (runSync horizon (initSync ["a", "b"]) aPkts).2.map
        Prod.fst)) := by
  have hinv : ∀ (horizon : Nat) (required : List String) (events : List Packet),
      ∀ e ∈ (runSync horizon (initSync required) events).1.groups,
        (runSync horizon (initSync required) events).1.maxSeen ≤ e.1 + horizon ∧
        e.1 ≤ (runSync horizon (initSync required) events).1.maxSeen := by
    intro horizon required events
    exact runSync_horizon_inv horizon events (initSync required)
      (by simp [initSync])
  refine ⟨hinv, ?_, ?_⟩
  · intro horizon required events
    exact groups_length_bound horizon _
      ((runSync_wf horizon required events (initSync required)
        [] (initSync_wf required)).1.keysNodup)
      (hinv horizon required events)
  · intro horizon hh
    constructor
    · intro g hg
      have := hinv horizon ["a", "b"] aPkts (0, g) hg
      rw [aPkts_maxSeen] at this
      omega
    · apply (C1_sequence_sync horizon ["a", "b"] aPkts).2.2.1 0 "b" (by simp)
      intro p hp hcon
      have := aPkts_stream p hp
      rw [this] at hcon
      simp at hcon

/-- Witness for C4 at the concrete horizon 30. -/
theorem C4_bounded_eviction_witness :
    (∀ g : SyncGroup, ((0 : Nat), g) ∉
      (runSync 30 (initSync ["a", "b"]) aPkts).1.groups) ∧
    ((0 : Nat) ∉ (runSync 30 (initSync ["a", "b"]) aPkts).2.map Prod.fst) :=
  C4_bounded_eviction.2.2 30 (by omega)

theorem sync_horizon_irrel (c h h' : Nat) (hch : c ≤ h) (hch' : c ≤ h')
    (st : SyncState) (p : Packet) (hmax : st.maxSeen ≤ c) (hp : p.seq ≤ c) :
    sync h st p = sync h' st p := by
  unfold sync
  split
  · rw [evictOld_eq_self h _ _ (by omega), evictOld_eq_self h' _ _ (by omega)]
  · rw [evictOld_eq_self h _ _ (by omega), evictOld_eq_self h' _ _ (by omega)]

theorem runSync_horizon_irrel (c h h' : Nat) (hch : c ≤ h) (hch' : c ≤ h') :
    ∀ (events : List Packet) (st : SyncState), st.maxSeen ≤ c →
    (∀ p ∈ events, p.seq ≤ c) →
    runSync h st events = runSync h' st events := by
  intro events
  induction events with
  | nil => intro st _ _; rfl
  | cons p ps ih =>
    intro st hmax hseq
    have hstep := sync_horizon_irrel c h h' hch hch' st p hmax (hseq p (by simp))
    show ((runSync h (new_packet h st p).1 ps).1,
        (new_packet h st p).2.toList ++ (runSync h (new_packet h st p).1 ps).2) = _
    have hrec : runSync h (sync h st p).1 ps = runSync h' (sync h st p).1 ps := by
      apply ih
      · rw [sync_maxSeen]
        have := hseq p (by simp)
        omega
      · intro q hq
        exact hseq q (List.mem_cons_of_mem p hq)
    show ((runSync h (sync h st p).1 ps).1,
        (sync h st p).2.toList ++ (runSync h (sync h st p).1 ps).2) = _
    rw [hrec, hstep]
    rfl

theorem interleavingsFuel_mem {α : Type} :
    ∀ (fuel : Nat) (xs ys l : List α), l ∈ interleavingsFuel fuel xs ys →
    ∀ a ∈ l, a ∈ xs ∨ a ∈ ys := by
  intro fuel
  induction fuel with
  | zero => intro xs ys l hl; simp [interleavingsFuel] at hl
  | succ fuel ih =>
    intro xs ys l hl a ha
    cases xs with
    | nil =>
      simp only [interleavingsFuel, List.mem_singleton] at hl
      subst hl
      exact Or.inr ha
    | cons x xs' =>
      cases ys with
      | nil =>
        simp only [interleavingsFuel, List.mem_singleton] at hl
        subst hl
        exact Or.inl ha
      | cons y ys' =>
        simp only [interleavingsFuel] at hl
        rcases List.mem_append.mp hl with h1 | h1
        · rw [List.mem_map] at h1
          obtain ⟨l', hl', heq⟩ := h1
          subst heq
          rcases List.mem_cons.mp ha with hax | hal
          · exact Or.inl (by rw [hax]; simp)
          · rcases ih xs' (y :: ys') l' hl' a hal with h2 | h2
            · exact Or.inl (List.mem_cons_of_mem x h2)
            · exact Or.inr h2
        · rw [List.mem_map] at h1
          obtain ⟨l', hl', heq⟩ := h1
          subst heq
          rcases List.mem_cons.mp ha with hay | hal
          · exact Or.inr (by rw [hay]; simp)
          · rcases ih (x :: xs') ys' l' hl' a hal with h2 | h2
            · exact Or.inl h2
            · exact Or.inr (List.mem_cons_of_mem y h2)

/-- C2: for a 2-stream synchronized binding on streams "color" and "nn", for
every interleaving that feeds "color" packets with sequence numbers 0, 1, 2
and "nn" packets with sequence numbers 1 and 2 only (and any eviction horizon
of at least 2), exactly two bundles are emitted — for sequence numbers 1 and
2, in that order — each containing both streams' packets, and sequence
number 0 is never emitted. -/
theorem C2_end_to_end :
    ∀ horizon : Nat, 2 ≤ horizon →
    ∀ l ∈ interleavings colorPkts nnPkts,
      ((runSync horizon (initSync ["color", "nn"]) l).2.map Prod.fst = [1, 2]) ∧
      ((0 : Nat) ∉
        (runSync horizon (initSync ["color", "nn"]) l).2.map Prod.fst) ∧
      (∀ e ∈ (runSync horizon (initSync ["color", "nn"]) l).2,
        ("color", ({ stream := "color", seq := e.1, payload := 0 } : Packet))
            ∈ e.2 ∧
        ("nn", ({ stream := "nn", seq := e.1, payload := 0 } : Packet)) ∈ e.2 ∧
        e.2.length = 2) := by
  have hconc : ∀ l ∈ interleavings colorPkts nnPkts,
      ((runSync 2 (initSync ["color", "nn"]) l).2.map Prod.fst = [1, 2]) ∧
      ((0 : Nat) ∉ (runSync 2 (initSync ["color", "nn"]) l).2.map Prod.fst) ∧
      (∀ e ∈ (runSync 2 (initSync ["color", "nn"]) l).2,
        ("color", ({ stream := "color", seq := e.1, payload := 0 } : Packet))
            ∈ e.2 ∧
        ("nn", ({ stream := "nn", seq := e.1, payload := 0 } : Packet)) ∈ e.2 ∧
        e.2.length = 2) := by decide
  intro horizon hh l hl
  have hseq : ∀ p ∈ l, p.seq ≤ 2 := by
    intro p hp
    rcases interleavingsFuel_mem _ colorPkts nnPkts l hl p hp with h | h
    · fin_cases h <;> decide
    · fin_cases h <;> decide
  have hrw := runSync_horizon_irrel 2 2 horizon (le_refl 2) hh l
    (initSync ["color", "nn"]) (by simp [initSync]) hseq
  rw [← hrw]
  exact hconc l hl

/-- Witness for C2 at horizon 2 and the interleaving that plays all "color"
packets first. -/
theorem C2_end_to_end_witness :
    (colorPkts ++ nnPkts) ∈ interleavings colorPkts nnPkts ∧
    ((runSync 2 (initSync ["color", "nn"])
      (colorPkts ++ nnPkts)).2.map Prod.fst = [1, 2]) :=
  ⟨by decide,
    (C2_end_to_end 2 (le_refl 2) (colorPkts ++ nnPkts) (by decide)).1⟩
